import Mathlib

/-!
Verification development for the awesome-concurrency repository.

The C++ sources are shallowly embedded as follows:

* `common::containers::RingBuffer` / `FastRingBuffer` (ring_buffer.hpp) become
  pure state-passing functions over a record of the fields `data_`, `capacity_`,
  `readIdx_`, `writeIdx_` (plus the two cached indices for the fast variant).
  `size_t` indices are modelled as `Nat`; the indices stay below the capacity
  because every store writes `(i + 1) % capacity_`, so no wrap-around at `2^64`
  is reachable.  The expression `(i + 1) % capacity_` divides by zero in C++
  when the capacity is `0`, so the operations return `Option`: `none` models
  that undefined behaviour, `some` the defined result.

* The locks (ttas_spinlock.hpp, ticket_lock.hpp, mcs_spinlock.hpp, mutex.hpp)
  are embedded twice: the non-blocking entry points (`try_lock`, `unlock`,
  `TryCompareExchange`, `UnlockFastPath`) as pure functions on the lock word,
  and the full blocking protocols as small-step transition relations under a
  sequentially consistent interleaving of the atomic operations, which is the
  reading of "arbitrary interleaving" used by the specification.  Ticket
  counters are `uint64_t` in the source, chosen (per the source comment) so
  that wrap-around is unreachable during the lock's lifetime; they are
  modelled as unbounded `Nat`.
-/

namespace Containers

/-- State of `common::containers::RingBuffer<T>`: the lazily grown backing
vector `data_`, the fixed `capacity_`, and the two indices `readIdx_`,
`writeIdx_`. -/
structure RB (α : Type) where
  cap : Nat
  data : List α
  rIdx : Nat
  wIdx : Nat
deriving DecidableEq

/-- The constructor `RingBuffer(size_t capacity)`: it stores the capacity and
reserves storage, performing no validation of the capacity value. -/
def RB.new (α : Type) (capacity : Nat) : RB α := ⟨capacity, [], 0, 0⟩

/-- The two store branches of `Push` ("lazy construction"): `emplace_back`
when the slot has never been touched, assignment `data_[i] = v` otherwise. -/
def writeSlot {α : Type} (data : List α) (i : Nat) (v : α) : List α :=
  if data.length ≤ i then data ++ [v] else data.set i v

/-- `RingBuffer::Push`.  Returns `none` when `(currentWriteIdx + 1) % capacity_`
divides by zero (capacity `0`, undefined behaviour in C++), otherwise `some`
of the returned boolean and the successor state. -/
def RB.Push {α : Type} (v : α) (s : RB α) : Option (Bool × RB α) :=
  if s.cap = 0 then none
  else
    let next := (s.wIdx + 1) % s.cap
    if next = s.rIdx then some (false, s)
    else some (true, { s with data := writeSlot s.data s.wIdx v, wIdx := next })

/-- `RingBuffer::Pop`.  The emptiness check `readIdx == writeIdx` precedes both
the element read and the index computation, so the division by zero is reached
only when the indexes differ. -/
def RB.Pop {α : Type} [Inhabited α] (s : RB α) : Option (Option α × RB α) :=
  if s.rIdx = s.wIdx then some (none, s)
  else if s.cap = 0 then none
  else some (some (s.data.getD s.rIdx default),
             { s with rIdx := (s.rIdx + 1) % s.cap })

/-- State of `common::containers::FastRingBuffer<T>`: the plain fields plus the
locally cached copies `readIdxCached_` (used by the producer) and
`writeIdxCached_` (used by the consumer). -/
structure FRB (α : Type) where
  cap : Nat
  data : List α
  rIdx : Nat
  wIdx : Nat
  rCached : Nat
  wCached : Nat
deriving DecidableEq

/-- The `FastRingBuffer(size_t capacity)` constructor. -/
def FRB.new (α : Type) (capacity : Nat) : FRB α := ⟨capacity, [], 0, 0, 0, 0⟩

/-- `FastRingBuffer::Push`: the full/empty test is first run against the cached
read index and the real atomic index is re-read only when the cached check
indicates a full buffer. -/
def FRB.Push {α : Type} (v : α) (s : FRB α) : Option (Bool × FRB α) :=
  if s.cap = 0 then none
  else
    let next := (s.wIdx + 1) % s.cap
    if next = s.rCached then
      let rc := s.rIdx
      if next = rc then some (false, { s with rCached := rc })
      else some (true, { s with rCached := rc,
                                data := writeSlot s.data s.wIdx v, wIdx := next })
    else some (true, { s with data := writeSlot s.data s.wIdx v, wIdx := next })

/-- `FastRingBuffer::Pop`, with the symmetric cached check of the write index. -/
def FRB.Pop {α : Type} [Inhabited α] (s : FRB α) : Option (Option α × FRB α) :=
  if s.rIdx = s.wCached then
    let wc := s.wIdx
    if s.rIdx = wc then some (none, { s with wCached := wc })
    else if s.cap = 0 then none
    else some (some (s.data.getD s.rIdx default),
               { s with wCached := wc, rIdx := (s.rIdx + 1) % s.cap })
  else if s.cap = 0 then none
  else some (some (s.data.getD s.rIdx default),
             { s with rIdx := (s.rIdx + 1) % s.cap })

/-- An operation of the `Push`/`Pop` interface. -/
inductive Op (α : Type) where
  | push (v : α)
  | pop

/-- The observable result of one operation: the boolean of `Push` or the
optional value of `Pop`. -/
inductive Res (α : Type) where
  | pushed (ok : Bool)
  | popped (x : Option α)
deriving DecidableEq

/-- Run one operation on a plain ring buffer. -/
def RB.runOp {α : Type} [Inhabited α] (s : RB α) : Op α → Option (Res α × RB α)
  | .push v => (s.Push v).map fun p => (.pushed p.1, p.2)
  | .pop => s.Pop.map fun p => (.popped p.1, p.2)

/-- Run a sequence of operations on a plain ring buffer, collecting results. -/
def RB.run {α : Type} [Inhabited α] (s : RB α) : List (Op α) → Option (List (Res α) × RB α)
  | [] => some ([], s)
  | op :: ops => do
      let p ← s.runOp op
      let q ← p.2.run ops
      pure (p.1 :: q.1, q.2)

/-- Run one operation on a fast ring buffer. -/
def FRB.runOp {α : Type} [Inhabited α] (s : FRB α) : Op α → Option (Res α × FRB α)
  | .push v => (s.Push v).map fun p => (.pushed p.1, p.2)
  | .pop => s.Pop.map fun p => (.popped p.1, p.2)

/-- Run a sequence of operations on a fast ring buffer, collecting results. -/
def FRB.run {α : Type} [Inhabited α] (s : FRB α) : List (Op α) → Option (List (Res α) × FRB α)
  | [] => some ([], s)
  | op :: ops => do
      let p ← s.runOp op
      let q ← p.2.run ops
      pure (p.1 :: q.1, q.2)

/-- Sequential reachability of a plain ring buffer state through completed
(non-UB) `Push`/`Pop` calls. -/
inductive RB.Reach {α : Type} [Inhabited α] : RB α → RB α → Prop where
  | refl (s : RB α) : RB.Reach s s
  | push (s t t' : RB α) (v : α) (b : Bool) :
      RB.Reach s t → t.Push v = some (b, t') → RB.Reach s t'
  | pop (s t t' : RB α) (x : Option α) :
      RB.Reach s t → t.Pop = some (x, t') → RB.Reach s t'

/-- Sequential reachability of a fast ring buffer state. -/
inductive FRB.Reach {α : Type} [Inhabited α] : FRB α → FRB α → Prop where
  | refl (s : FRB α) : FRB.Reach s s
  | push (s t t' : FRB α) (v : α) (b : Bool) :
      FRB.Reach s t → t.Push v = some (b, t') → FRB.Reach s t'
  | pop (s t t' : FRB α) (x : Option α) :
      FRB.Reach s t → t.Pop = some (x, t') → FRB.Reach s t'

theorem RB.Reach.cap_eq {α : Type} [Inhabited α] {s t : RB α} (h : RB.Reach s t) :
    t.cap = s.cap := by
  induction h with
  | refl => rfl
  | push t t' v b h hp ih =>
      unfold RB.Push at hp
      split at hp
      · exact absurd hp (by simp)
      · simp only at hp
        split at hp <;> simp only [Option.some.injEq, Prod.mk.injEq] at hp <;>
          rw [← hp.2] <;> exact ih
  | pop t t' x h hp ih =>
      unfold RB.Pop at hp
      split at hp
      · simp only [Option.some.injEq, Prod.mk.injEq] at hp
        rw [← hp.2]; exact ih
      · split at hp
        · exact absurd hp (by simp)
        · simp only [Option.some.injEq, Prod.mk.injEq] at hp
          rw [← hp.2]; exact ih

theorem RB.run_pushes {α : Type} [Inhabited α] (C : Nat) (pre vs : List α)
    (h : pre.length + vs.length + 1 ≤ C) :
    RB.run ⟨C, pre, 0, pre.length⟩ (vs.map Op.push) =
      some (vs.map fun _ => Res.pushed true, ⟨C, pre ++ vs, 0, pre.length + vs.length⟩) := by
  induction vs generalizing pre with
  | nil => simp [RB.run]
  | cons v vs ih =>
      have hc0 : ¬ C = 0 := by simp at h; omega
      have hlt : pre.length + 1 < C := by simp at h; omega
      have hmod : (pre.length + 1) % C = pre.length + 1 := Nat.mod_eq_of_lt hlt
      have hne : ¬ (pre.length + 1) % C = 0 := by omega
      have := ih (pre ++ [v]) (by simp at h ⊢; omega)
      simp only [List.length_append, List.length_singleton] at this
      simp only [List.map_cons, RB.run, RB.runOp, RB.Push, hc0, if_false, hmod,
        writeSlot, le_refl, if_true, Nat.succ_ne_zero]
      simp only [Option.map_some', Option.bind_eq_bind, Option.some_bind]
      simp only [this, Option.some_bind, Option.some.injEq, Prod.mk.injEq]
      simp only [Option.pure_def, Option.some.injEq, Prod.mk.injEq, RB.mk.injEq,
        List.length_cons]
      and_intros <;> first | trivial | simp | omega

theorem RB.run_pops {α : Type} [Inhabited α] (C : Nat) (data : List α)
    (hlen : data.length + 1 ≤ C) :
    ∀ (n j : Nat), j + n = data.length →
    RB.run ⟨C, data, j, data.length⟩ (List.replicate n Op.pop) =
      some ((data.drop j).map fun v => Res.popped (some v),
            ⟨C, data, data.length, data.length⟩) := by
  intro n
  induction n with
  | zero =>
      intro j hj
      have : j = data.length := by omega
      subst this
      simp [RB.run]
  | succ n ih =>
      intro j hj
      have hjlt : j < data.length := by omega
      have hc0 : ¬ C = 0 := by omega
      have hmod : (j + 1) % C = j + 1 := Nat.mod_eq_of_lt (by omega)
      have hdrop : data.drop j = data[j] :: data.drop (j + 1) :=
        List.drop_eq_getElem_cons hjlt
      have hgd : data.getD j default = data[j] := by
        simp [List.getD_eq_getElem?_getD, List.getElem?_eq_getElem hjlt]
      have := ih (j + 1) (by omega)
      simp only [List.replicate_succ, RB.run, RB.runOp, RB.Pop, hc0, if_false,
        Nat.ne_of_lt hjlt, hmod, hgd]
      simp only [Option.map_some', Option.bind_eq_bind, Option.some_bind]
      rw [this]
      simp only [Option.bind_eq_bind, Option.some_bind]
      rw [hdrop]
      simp [Option.pure_def]
      conv_rhs => rw [List.drop_eq_getElem_cons (l := data.map fun v => Res.popped (some v))
        (by simpa using hjlt)]
      simp

theorem RB.reach_cap_one {α : Type} [Inhabited α] {s : RB α}
    (h : RB.Reach (RB.new α 1) s) : s = RB.new α 1 := by
  induction h with
  | refl => rfl
  | push t t' v b h hp ih =>
      subst ih
      simp [RB.Push, RB.new] at hp
      exact hp.2.symm
  | pop t t' x h hp ih =>
      subst ih
      simp [RB.Pop, RB.new] at hp
      exact hp.2.symm

theorem FRB.fast_reach_cap_one {α : Type} [Inhabited α] {s : FRB α}
    (h : FRB.Reach (FRB.new α 1) s) : s = FRB.new α 1 := by
  induction h with
  | refl => rfl
  | push t t' v b h hp ih =>
      subst ih
      simp [FRB.Push, FRB.new] at hp
      exact hp.2.symm
  | pop t t' x h hp ih =>
      subst ih
      simp [FRB.Pop, FRB.new] at hp
      exact hp.2.symm

/-- C2: starting from an empty `RingBuffer` of capacity `C ≥ 2`, the first
`C - 1` `Push` calls all return `true`, the `C`-th returns `false`, the next
`C - 1` `Pop` calls return exactly the pushed values in push order, and the
`Pop` after draining returns an empty result. -/
theorem c2_ring_buffer_fill_and_drain {α : Type} [Inhabited α] (C : Nat)
    (hC : 2 ≤ C) (vs : List α) (hlen : vs.length = C - 1) (w : α) :
    ∃ sFull sEmpty : RB α,
      RB.run (RB.new α C) (vs.map Op.push) =
        some (vs.map fun _ => Res.pushed true, sFull)
      ∧ sFull.Push w = some (false, sFull)
      ∧ RB.run sFull (List.replicate (C - 1) Op.pop) =
          some (vs.map fun v => Res.popped (some v), sEmpty)
      ∧ sEmpty.Pop = some (none, sEmpty) := by
  refine ⟨⟨C, vs, 0, C - 1⟩, ⟨C, vs, C - 1, C - 1⟩, ?_, ?_, ?_, ?_⟩
  · have := RB.run_pushes C [] vs (by simp; omega)
    simpa [RB.new, hlen] using this
  · have h1 : C - 1 + 1 = C := by omega
    simp [RB.Push, h1, Nat.mod_self]
    omega
  · have := RB.run_pops C vs (by omega) (C - 1) 0 (by omega)
    simpa [hlen] using this
  · simp [RB.Pop]

theorem c2_ring_buffer_fill_and_drain_witness :
    (2 : Nat) ≤ 3 ∧ ([10, 20] : List Nat).length = 3 - 1 ∧
    ∃ sFull sEmpty : RB Nat,
      RB.run (RB.new Nat 3) ([10, 20].map Op.push) =
        some ([10, 20].map fun _ => Res.pushed true, sFull)
      ∧ sFull.Push 7 = some (false, sFull)
      ∧ RB.run sFull (List.replicate (3 - 1) Op.pop) =
          some ([10, 20].map fun v => Res.popped (some v), sEmpty)
      ∧ sEmpty.Pop = some (none, sEmpty) :=
  ⟨by norm_num, by norm_num,
    c2_ring_buffer_fill_and_drain 3 (by norm_num) [10, 20] (by norm_num) 7⟩

/-- C3: in every sequentially reachable state of a `RingBuffer` of capacity
`C ≥ 1`, `Push` returns `false` exactly when `(writeIdx + 1) % C = readIdx`
and then leaves the state unchanged, and `Pop` returns an empty result exactly
when `readIdx = writeIdx` and then leaves the state unchanged. -/
theorem c3_ring_buffer_failure_conditions (C : Nat) (hC : 1 ≤ C) (s : RB Nat)
    (hreach : RB.Reach (RB.new Nat C) s) (v : Nat) :
    ((s.wIdx + 1) % C = s.rIdx → s.Push v = some (false, s))
    ∧ ((s.wIdx + 1) % C ≠ s.rIdx → ∃ s', s.Push v = some (true, s'))
    ∧ (s.rIdx = s.wIdx → s.Pop = some (none, s))
    ∧ (s.rIdx ≠ s.wIdx → ∃ x s', s.Pop = some (some x, s')) := by
  have hcap : s.cap = C := hreach.cap_eq
  have hc0 : ¬ s.cap = 0 := by omega
  have hC0 : ¬ C = 0 := by omega
  refine ⟨fun h => ?_, fun h => ?_, fun h => ?_, fun h => ?_⟩
  · simp [RB.Push, hcap, hC0, h]
  · exact ⟨⟨C, writeSlot s.data s.wIdx v, s.rIdx, (s.wIdx + 1) % C⟩,
      by simp [RB.Push, hcap, hC0, h]⟩
  · simp [RB.Pop, h]
  · exact ⟨s.data.getD s.rIdx default, ⟨s.cap, s.data, (s.rIdx + 1) % s.cap, s.wIdx⟩,
      by simp [RB.Pop, hc0, h]⟩

theorem c3_ring_buffer_failure_conditions_witness :
    (1 : Nat) ≤ 2 ∧ RB.Reach (RB.new Nat 2) (RB.new Nat 2) ∧
    ((((RB.new Nat 2).wIdx + 1) % 2 = (RB.new Nat 2).rIdx →
        (RB.new Nat 2).Push 5 = some (false, RB.new Nat 2))
      ∧ (((RB.new Nat 2).wIdx + 1) % 2 ≠ (RB.new Nat 2).rIdx →
          ∃ s', (RB.new Nat 2).Push 5 = some (true, s'))
      ∧ ((RB.new Nat 2).rIdx = (RB.new Nat 2).wIdx →
          (RB.new Nat 2).Pop = some (none, RB.new Nat 2))
      ∧ ((RB.new Nat 2).rIdx ≠ (RB.new Nat 2).wIdx →
          ∃ x s', (RB.new Nat 2).Pop = some (some x, s'))) :=
  ⟨by norm_num, RB.Reach.refl _,
    c3_ring_buffer_failure_conditions 2 (by norm_num) (RB.new Nat 2)
      (RB.Reach.refl _) 5⟩

/-- C10: the constructors accept any capacity; with capacity `0` the index
computation `(i + 1) % capacity_` of `Push` divides by zero on the very first
call, and the one in `Pop` divides by zero whenever `Pop` gets past its
emptiness check; with capacity at least `1` both operations are total, and a
capacity-`1` buffer reachable from construction refuses every `Push` and
returns empty from every `Pop`, never holding an element. -/
theorem c10_capacity_zero_and_one :
    (RB.Push 0 (RB.new Nat 0) = none)
    ∧ (FRB.Push 0 (FRB.new Nat 0) = none)
    ∧ (∀ s : RB Nat, s.cap = 0 → s.rIdx ≠ s.wIdx → s.Pop = none)
    ∧ (∀ s : FRB Nat, s.cap = 0 → s.rIdx ≠ s.wIdx → s.Pop = none)
    ∧ (∀ (s : RB Nat) (v : Nat), 1 ≤ s.cap → (s.Push v).isSome ∧ s.Pop.isSome)
    ∧ (∀ (s : FRB Nat) (v : Nat), 1 ≤ s.cap → (s.Push v).isSome ∧ s.Pop.isSome)
    ∧ (∀ s : RB Nat, RB.Reach (RB.new Nat 1) s → ∀ v : Nat,
        s.Push v = some (false, s) ∧ s.Pop = some (none, s))
    ∧ (∀ s : FRB Nat, FRB.Reach (FRB.new Nat 1) s → ∀ v : Nat,
        s.Push v = some (false, s) ∧ s.Pop = some (none, s)) := by
  refine ⟨rfl, rfl, ?_, ?_, ?_, ?_, ?_, ?_⟩
  · intro s h0 hne
    simp [RB.Pop, hne, h0]
  · intro s h0 hne
    unfold FRB.Pop
    split
    · simp [hne, h0]
    · simp [h0]
  · intro s v h1
    have h0 : ¬ s.cap = 0 := by omega
    constructor
    · by_cases hfull : (s.wIdx + 1) % s.cap = s.rIdx <;> simp [RB.Push, h0, hfull]
    · by_cases hempty : s.rIdx = s.wIdx <;> simp [RB.Pop, h0, hempty]
  · intro s v h1
    have h0 : ¬ s.cap = 0 := by omega
    constructor
    · by_cases hc1 : (s.wIdx + 1) % s.cap = s.rCached <;>
        by_cases hc2 : (s.wIdx + 1) % s.cap = s.rIdx <;>
          simp [FRB.Push, h0, hc1, hc2] <;> split <;> simp
    · by_cases hc1 : s.rIdx = s.wCached <;> by_cases hc2 : s.rIdx = s.wIdx <;>
        simp [FRB.Pop, h0, hc1, hc2] <;> split <;> simp
  · intro s hreach v
    have := RB.reach_cap_one hreach
    subst this
    constructor <;> rfl
  · intro s hreach v
    have := FRB.fast_reach_cap_one hreach
    subst this
    constructor <;> rfl

theorem c10_capacity_zero_and_one_witness :
    (⟨0, [], 0, 1⟩ : RB Nat).cap = 0 ∧ (⟨0, [], 0, 1⟩ : RB Nat).rIdx ≠ (⟨0, [], 0, 1⟩ : RB Nat).wIdx ∧
    (⟨0, [], 0, 1⟩ : RB Nat).Pop = none ∧
    (1 : Nat) ≤ (RB.new Nat 1).cap ∧ ((RB.new Nat 1).Push 5).isSome ∧
    RB.Reach (RB.new Nat 1) (RB.new Nat 1) ∧
    (RB.new Nat 1).Push 5 = some (false, RB.new Nat 1) := by
  refine ⟨rfl, by decide, ?_, by decide, ?_, ?_, ?_⟩
  · exact c10_capacity_zero_and_one.2.2.1 _ rfl (by decide)
  · exact (c10_capacity_zero_and_one.2.2.2.2.1 (RB.new Nat 1) 5 (by decide)).1
  · exact RB.Reach.refl _
  · exact ((c10_capacity_zero_and_one.2.2.2.2.2.2.1 (RB.new Nat 1)
      (RB.Reach.refl _)) 5).1

/-- Cyclic distance from `b` forward to `a` in a ring of size `C`; for
`a, b < C` it equals `(a + C - b) % C`. -/
def dist (C a b : Nat) : Nat := if b ≤ a then a - b else a + C - b

theorem succ_mod_eq (C w : Nat) (hw : w < C) :
    (w + 1) % C = if w + 1 = C then 0 else w + 1 := by
  split
  · rename_i h
    rw [h, Nat.mod_self]
  · exact Nat.mod_eq_of_lt (by omega)

theorem dist_eq_zero_iff (C a b : Nat) (ha : a < C) (hb : b < C) :
    dist C a b = 0 ↔ a = b := by
  unfold dist
  split <;> omega

theorem dist_succ_fst (C a b : Nat) (ha : a < C) (hb : b < C)
    (hne : (a + 1) % C ≠ b) : dist C ((a + 1) % C) b = dist C a b + 1 := by
  have h := succ_mod_eq C a ha
  by_cases hac : a + 1 = C
  · have hv : (a + 1) % C = 0 := by rw [h, if_pos hac]
    rw [hv] at hne ⊢
    unfold dist
    split_ifs <;> omega
  · have hv : (a + 1) % C = a + 1 := by rw [h, if_neg hac]
    rw [hv] at hne ⊢
    unfold dist
    split_ifs <;> omega

theorem dist_succ_snd (C a b : Nat) (ha : a < C) (hb : b < C) (hne : b ≠ a) :
    dist C a ((b + 1) % C) + 1 = dist C a b := by
  have h := succ_mod_eq C b hb
  by_cases hbc : b + 1 = C
  · have hv : (b + 1) % C = 0 := by rw [h, if_pos hbc]
    rw [hv]
    unfold dist
    split_ifs <;> omega
  · have hv : (b + 1) % C = b + 1 := by rw [h, if_neg hbc]
    rw [hv]
    unfold dist
    split_ifs <;> omega

theorem succ_mod_inj (C a b : Nat) (ha : a < C) (hb : b < C)
    (h : (a + 1) % C = (b + 1) % C) : a = b := by
  rw [succ_mod_eq C a ha, succ_mod_eq C b hb] at h
  by_cases hac : a + 1 = C <;> by_cases hbc : b + 1 = C <;>
    simp [hac, hbc] at h <;> omega

/-- Simulation relation between a `FastRingBuffer` state and a plain
`RingBuffer` state: the shared fields agree, every index is in range, and the
cached indices are conservative: the free space computed from the cached read
index never exceeds the real free space, and the occupancy computed from the
cached write index never exceeds the real occupancy. -/
def SimInv {α : Type} (f : FRB α) (p : RB α) : Prop :=
  f.cap = p.cap ∧ f.data = p.data ∧ f.rIdx = p.rIdx ∧ f.wIdx = p.wIdx
  ∧ 1 ≤ p.cap ∧ p.rIdx < p.cap ∧ p.wIdx < p.cap
  ∧ f.rCached < p.cap ∧ f.wCached < p.cap
  ∧ dist p.cap f.rCached ((p.wIdx + 1) % p.cap)
      ≤ dist p.cap p.rIdx ((p.wIdx + 1) % p.cap)
  ∧ dist p.cap f.wCached p.rIdx ≤ dist p.cap p.wIdx p.rIdx

theorem sim_push {α : Type} (v : α) (f : FRB α) (p : RB α) (h : SimInv f p) :
    ∃ b f' p', FRB.Push v f = some (b, f') ∧ RB.Push v p = some (b, p')
      ∧ SimInv f' p' := by
  obtain ⟨fc, fd, fr, fw, frc, fwc⟩ := f
  obtain ⟨pc, pd, pr, pw⟩ := p
  obtain ⟨hcap, hdata, hr, hw, hC, hrlt, hwlt, hrc, hwc, hfree, hused⟩ := h
  simp only at hcap hdata hr hw hC hrlt hwlt hrc hwc hfree hused
  subst hcap hdata hr hw
  have h0 : ¬ fc = 0 := by omega
  have hnext : (fw + 1) % fc < fc := Nat.mod_lt _ (by omega)
  by_cases h1 : (fw + 1) % fc = frc
  · by_cases h2 : (fw + 1) % fc = fr
    · refine ⟨false, ⟨fc, fd, fr, fw, fr, fwc⟩, ⟨fc, fd, fr, fw⟩, ?_, ?_, ?_⟩
      · simp [FRB.Push, h0, h1, h2] <;> omega
      · simp [RB.Push, h0, h2]
      · exact ⟨rfl, rfl, rfl, rfl, hC, hrlt, hwlt, hrlt, hwc, le_refl _, hused⟩
    · refine ⟨true, ⟨fc, writeSlot fd fw v, fr, (fw + 1) % fc, fr, fwc⟩,
        ⟨fc, writeSlot fd fw v, fr, (fw + 1) % fc⟩, ?_, ?_, ?_⟩
      · simp [FRB.Push, h0, h1, h2] <;> omega
      · simp [RB.Push, h0, h2]
      · refine ⟨rfl, rfl, rfl, rfl, hC, hrlt, hnext, hrlt, hwc, le_refl _, ?_⟩
        have := dist_succ_fst fc fw fr hwlt hrlt h2
        simp only
        omega
  · have hfa : dist fc frc ((fw + 1) % fc) ≠ 0 :=
      fun hz => h1 ((dist_eq_zero_iff fc frc _ hrc hnext).mp hz).symm
    have hra : dist fc fr ((fw + 1) % fc) ≠ 0 := by omega
    have h2 : ¬ (fw + 1) % fc = fr :=
      fun he => hra ((dist_eq_zero_iff fc fr _ hrlt hnext).mpr he.symm)
    refine ⟨true, ⟨fc, writeSlot fd fw v, fr, (fw + 1) % fc, frc, fwc⟩,
      ⟨fc, writeSlot fd fw v, fr, (fw + 1) % fc⟩, ?_, ?_, ?_⟩
    · simp [FRB.Push, h0, h1]
    · simp [RB.Push, h0, h2]
    · refine ⟨rfl, rfl, rfl, rfl, hC, hrlt, hnext, hrc, hwc, ?_, ?_⟩
      · have ha := dist_succ_snd fc frc ((fw + 1) % fc) hrc hnext (by omega)
        have hb := dist_succ_snd fc fr ((fw + 1) % fc) hrlt hnext (by omega)
        simp only
        omega
      · have := dist_succ_fst fc fw fr hwlt hrlt h2
        simp only
        omega

theorem sim_pop {α : Type} [Inhabited α] (f : FRB α) (p : RB α) (h : SimInv f p) :
    ∃ x f' p', FRB.Pop f = some (x, f') ∧ RB.Pop p = some (x, p')
      ∧ SimInv f' p' := by
  obtain ⟨fc, fd, fr, fw, frc, fwc⟩ := f
  obtain ⟨pc, pd, pr, pw⟩ := p
  obtain ⟨hcap, hdata, hr, hw, hC, hrlt, hwlt, hrc, hwc, hfree, hused⟩ := h
  simp only at hcap hdata hr hw hC hrlt hwlt hrc hwc hfree hused
  subst hcap hdata hr hw
  have h0 : ¬ fc = 0 := by omega
  have hnextr : (fr + 1) % fc < fc := Nat.mod_lt _ (by omega)
  have hnextw : (fw + 1) % fc < fc := Nat.mod_lt _ (by omega)
  by_cases h1 : fr = fwc
  · by_cases h2 : fr = fw
    · refine ⟨none, ⟨fc, fd, fr, fw, frc, fw⟩, ⟨fc, fd, fr, fw⟩, ?_, ?_, ?_⟩
      · simp [FRB.Pop, h1, h2] <;> omega
      · simp [RB.Pop, h2]
      · exact ⟨rfl, rfl, rfl, rfl, hC, hrlt, hwlt, hrc, hwlt, hfree, le_refl _⟩
    · have hdiff : (fr + 1) % fc ≠ (fw + 1) % fc :=
        fun he => h2 (succ_mod_inj fc fr fw hrlt hwlt he)
      refine ⟨some (fd.getD fr default), ⟨fc, fd, (fr + 1) % fc, fw, frc, fw⟩,
        ⟨fc, fd, (fr + 1) % fc, fw⟩, ?_, ?_, ?_⟩
      · simp [FRB.Pop, h1, h2, h0] <;> omega
      · simp [RB.Pop, h2, h0]
      · refine ⟨rfl, rfl, rfl, rfl, hC, hnextr, hwlt, hrc, hwlt, ?_, ?_⟩
        · have := dist_succ_fst fc fr ((fw + 1) % fc) hrlt hnextw hdiff
          simp only
          omega
        · simp only
          exact le_refl _
  · have hua : dist fc fwc fr ≠ 0 :=
      fun hz => h1 ((dist_eq_zero_iff fc fwc fr hwc hrlt).mp hz).symm
    have hur : dist fc fw fr ≠ 0 := by omega
    have h2 : ¬ fr = fw :=
      fun he => hur ((dist_eq_zero_iff fc fw fr hwlt hrlt).mpr he.symm)
    have hdiff : (fr + 1) % fc ≠ (fw + 1) % fc :=
      fun he => h2 (succ_mod_inj fc fr fw hrlt hwlt he)
    refine ⟨some (fd.getD fr default), ⟨fc, fd, (fr + 1) % fc, fw, frc, fwc⟩,
      ⟨fc, fd, (fr + 1) % fc, fw⟩, ?_, ?_, ?_⟩
    · simp [FRB.Pop, h1, h0]
    · simp [RB.Pop, h2, h0]
    · refine ⟨rfl, rfl, rfl, rfl, hC, hnextr, hwlt, hrc, hwc, ?_, ?_⟩
      · have := dist_succ_fst fc fr ((fw + 1) % fc) hrlt hnextw hdiff
        simp only
        omega
      · have ha := dist_succ_snd fc fwc fr hwc hrlt (by omega)
        have hb := dist_succ_snd fc fw fr hwlt hrlt (by omega)
        simp only
        omega

theorem run_sim {α : Type} [Inhabited α] (ops : List (Op α)) :
    ∀ f p, SimInv f p →
    ∃ rs f' p', FRB.run f ops = some (rs, f') ∧ RB.run p ops = some (rs, p')
      ∧ SimInv f' p' := by
  induction ops with
  | nil => exact fun f p h => ⟨[], f, p, rfl, rfl, h⟩
  | cons op ops ih =>
      intro f p h
      cases op with
      | push v =>
          obtain ⟨b, f1, p1, hf, hp, h1⟩ := sim_push v f p h
          obtain ⟨rs, f2, p2, hf2, hp2, h2⟩ := ih f1 p1 h1
          refine ⟨.pushed b :: rs, f2, p2, ?_, ?_, h2⟩
          · simp [FRB.run, FRB.runOp, hf, hf2]
          · simp [RB.run, RB.runOp, hp, hp2]
      | pop =>
          obtain ⟨x, f1, p1, hf, hp, h1⟩ := sim_pop f p h
          obtain ⟨rs, f2, p2, hf2, hp2, h2⟩ := ih f1 p1 h1
          refine ⟨.popped x :: rs, f2, p2, ?_, ?_, h2⟩
          · simp [FRB.run, FRB.runOp, hf, hf2]
          · simp [RB.run, RB.runOp, hp, hp2]

/-- C4: for every capacity `C ≥ 1` and every sequence of `Push`/`Pop`
operations executed sequentially, `FastRingBuffer` produces exactly the same
sequence of results (`Push` booleans and `Pop` values) as the plain
`RingBuffer` of the same capacity. -/
theorem c4_fast_ring_buffer_same_results {α : Type} [Inhabited α] (C : Nat)
    (hC : 1 ≤ C) (ops : List (Op α)) :
    (FRB.run (FRB.new α C) ops).map Prod.fst
      = (RB.run (RB.new α C) ops).map Prod.fst := by
  have hinit : SimInv (FRB.new α C) (RB.new α C) := by
    refine ⟨rfl, rfl, rfl, rfl, hC, ?_, ?_, ?_, ?_, le_refl _, le_refl _⟩ <;>
      simp [RB.new, FRB.new] <;> omega
  obtain ⟨rs, f', p', hf, hp, _⟩ := run_sim ops _ _ hinit
  rw [hf, hp]
  simp

theorem c4_fast_ring_buffer_same_results_witness :
    (1 : Nat) ≤ 2 ∧
    (FRB.run (FRB.new Nat 2) [Op.push 4, Op.pop, Op.pop]).map Prod.fst
      = (RB.run (RB.new Nat 2) [Op.push 4, Op.pop, Op.pop]).map Prod.fst :=
  ⟨by norm_num, c4_fast_ring_buffer_same_results 2 (by norm_num) _⟩

end Containers

namespace TicketLock

/-- The two counters of `thread::sync::TicketLock`: `next_free_ticket_` and
`owner_ticket_` (`uint64_t` in the source, sized so that wrap-around is
unreachable; modelled as `Nat`). -/
structure TL where
  next_free_ticket : Nat
  owner_ticket : Nat
deriving DecidableEq

/-- `TicketLock::try_lock`: load `owner_ticket_` (relaxed), then
compare-and-swap `next_free_ticket_` from that value to that value plus one;
the call returns the success of the compare-and-swap. -/
def try_lock (l : TL) : Bool × TL :=
  let current_owner_ticket := l.owner_ticket
  if l.next_free_ticket = current_owner_ticket then
    (true, { l with next_free_ticket := current_owner_ticket + 1 })
  else
    (false, l)

end TicketLock

/-- C5: `TicketLock::try_lock` succeeds exactly when `next_free_ticket` equals
the loaded `owner_ticket`; on success it increments `next_free_ticket` by one
and leaves `owner_ticket` unchanged, and on failure it changes neither
counter. -/
theorem c5_ticket_try_lock (l : TicketLock.TL) :
    ((TicketLock.try_lock l).1 = true ↔ l.next_free_ticket = l.owner_ticket)
    ∧ ((TicketLock.try_lock l).1 = true →
        (TicketLock.try_lock l).2.next_free_ticket = l.next_free_ticket + 1
        ∧ (TicketLock.try_lock l).2.owner_ticket = l.owner_ticket)
    ∧ ((TicketLock.try_lock l).1 = false → (TicketLock.try_lock l).2 = l) := by
  unfold TicketLock.try_lock
  by_cases h : l.next_free_ticket = l.owner_ticket <;> simp [h]

theorem c5_ticket_try_lock_witness :
    ((TicketLock.try_lock ⟨5, 5⟩).1 = true ↔ (5 : Nat) = 5)
    ∧ ((TicketLock.try_lock ⟨5, 5⟩).1 = true →
        (TicketLock.try_lock ⟨5, 5⟩).2.next_free_ticket = 5 + 1
        ∧ (TicketLock.try_lock ⟨5, 5⟩).2.owner_ticket = 5)
    ∧ ((TicketLock.try_lock ⟨5, 5⟩).1 = false →
        (TicketLock.try_lock ⟨5, 5⟩).2 = ⟨5, 5⟩) :=
  c5_ticket_try_lock ⟨5, 5⟩

namespace TAS

/-- `TASSpinLock::TryCompareExchange`: `compare_exchange_weak` of the
`locked_` flag with expected value `false` and desired value `true`.  The
weak compare-and-swap is permitted to fail spuriously even when `locked_`
holds the expected value; the parameter `spur` resolves that nondeterminism
for one call.  Returns the success flag and the new flag value: genuine
failure when the flag is already set, spurious failure leaving the unheld
flag unchanged, or success setting the flag. -/
def TryCompareExchange (spur : Bool) (locked : Bool) : Bool × Bool :=
  if locked then (false, true)
  else if spur then (false, false)
  else (true, true)

/-- `TASSpinLock::try_lock` simply forwards to `TryCompareExchange`. -/
def try_lock (spur : Bool) (locked : Bool) : Bool × Bool :=
  TryCompareExchange spur locked

/-- `TASSpinLock::unlock`: store `false` with release ordering. -/
def unlock (_locked : Bool) : Bool :=
  false

/-- `TASSpinLock::lock`, run in isolation with a fuel bound on the outer
retry loop: repeat `TryCompareExchange` until it succeeds, returning the flag
value at the moment the lock is acquired (the inner read-only spin loop does
not change the state and is dropped).  The oracle supplies each iteration's
spurious-failure bit. -/
def lockLoop : Nat → (Nat → Bool) → Bool → Option Bool
  | 0, _, _ => none
  | fuel + 1, oracle, locked =>
      let p := TryCompareExchange (oracle fuel) locked
      if p.1 then some p.2 else lockLoop fuel oracle p.2

/-- Whenever the bounded `lock()` loop terminates, it has set the flag. -/
theorem lockLoop_eq_true :
    ∀ (fuel : Nat) (oracle : Nat → Bool) (locked s : Bool),
      lockLoop fuel oracle locked = some s → s = true := by
  intro fuel
  induction fuel with
  | zero =>
    intro oracle locked s h
    exact Option.noConfusion h
  | succ m ih =>
    intro oracle locked s h
    simp only [lockLoop] at h
    cases locked with
    | true =>
      simp [TryCompareExchange] at h
      exact ih oracle true s h
    | false =>
      cases ho : oracle m with
      | true =>
        rw [ho] at h
        simp [TryCompareExchange] at h
        exact ih oracle false s h
      | false =>
        rw [ho] at h
        simp [TryCompareExchange] at h
        exact h

end TAS

/-- C6 counterexample: the claim that a single `try_lock()` on an unheld
lock returns `true` fails, because `try_lock` forwards to a
`compare_exchange_weak`, which may fail spuriously even when the flag holds
the expected value `false`.  In the spurious execution, `try_lock` on the
unheld lock returns `false` (leaving the flag unchanged), so the return
value is not `true` for every resolution of the weak CAS. -/
theorem c6_counterexample_spurious_try_lock :
    (TAS.try_lock true false).1 = false
    ∧ (TAS.try_lock true false).2 = false
    ∧ ¬ (∀ spur : Bool, (TAS.try_lock spur false).1 = true) :=
  ⟨rfl, rfl, fun h => absurd (h true) (by decide)⟩

/-- C6 (amended): `TASSpinLock::try_lock` forwards to `TryCompareExchange`,
a `compare_exchange_weak` that may fail spuriously.  On a lock held by
another party it returns `false` and leaves the flag unchanged, under either
resolution of the spurious nondeterminism; on an unheld lock it either
returns `true` — leaving exactly the state a successful `lock()` call
produces, so a subsequent `unlock()` behaves identically — or fails
spuriously, returning `false` with the flag still unheld. -/
theorem c6_amended_ttas_try_lock :
    (∀ spur, TAS.try_lock spur true = (false, true))
    ∧ (∀ spur, TAS.try_lock spur false = (true, true)
        ∨ TAS.try_lock spur false = (false, false))
    ∧ (∀ fuel oracle spur s s',
        TAS.lockLoop (fuel + 1) oracle false = some s →
        TAS.try_lock spur false = (true, s') →
        s' = s ∧ TAS.unlock s' = TAS.unlock s) := by
  refine ⟨?_, ?_, ?_⟩
  · intro spur
    cases spur <;> rfl
  · intro spur
    cases spur
    · exact Or.inl rfl
    · exact Or.inr rfl
  · intro fuel oracle spur s s' h1 h2
    have hs := TAS.lockLoop_eq_true (fuel + 1) oracle false s h1
    have hs' : s' = true := by
      cases s' with
      | false => cases spur <;>
          simp [TAS.try_lock, TAS.TryCompareExchange] at h2
      | true => rfl
    rw [hs', hs]
    exact ⟨rfl, rfl⟩

/-- Witness for C6 (amended): the implication applied at one unit of fuel,
an oracle without spurious failures, and a non-spurious `try_lock`. -/
theorem c6_amended_ttas_try_lock_witness :
    TAS.lockLoop (0 + 1) (fun _ => false) false = some true
    ∧ TAS.try_lock false false = (true, true)
    ∧ (true = true ∧ TAS.unlock true = TAS.unlock true) :=
  ⟨rfl, rfl,
   c6_amended_ttas_try_lock.2.2 0 (fun _ => false) false true true rfl rfl⟩

namespace FutexMutex

/-- The three values of the `Mutex::State` word. -/
inductive Word where
  | unlocked
  | lockedNoWaiters
  | lockedHasWaiters
deriving DecidableEq

/-- `Mutex::UnlockFastPath`: compare-and-swap of the state word from
`LockedNoWaiters` to `Unlocked` (release on success); returns the success flag
and the resulting word. -/
def UnlockFastPath (w : Word) : Bool × Word :=
  if w = .lockedNoWaiters then (true, .unlocked) else (false, w)

/-- `Mutex::unlock`: try the fast path; when it fails, store `Unlocked`
(release) and issue a wake-all futex call.  Returns the final word and whether
the wake-all syscall was issued. -/
def unlock (w : Word) : Word × Bool :=
  let p := UnlockFastPath w
  if p.1 then (p.2, false) else (.unlocked, true)

end FutexMutex

/-- C8: `Mutex::unlock` by the holder takes exactly one of two paths: when the
word is `LockedNoWaiters` the fast compare-and-swap sets it to `Unlocked` with
no wake syscall; otherwise it stores `Unlocked` and wakes all waiters.  Either
way the word ends `Unlocked`, and the wake syscall happens exactly when the
fast-path compare-and-swap fails. -/
theorem c8_mutex_unlock (w : FutexMutex.Word)
    (hw : w ≠ FutexMutex.Word.unlocked) :
    ((FutexMutex.unlock w).1 = FutexMutex.Word.unlocked)
    ∧ ((FutexMutex.unlock w).2 = true ↔ (FutexMutex.UnlockFastPath w).1 = false)
    ∧ (w = FutexMutex.Word.lockedNoWaiters →
        FutexMutex.unlock w = (FutexMutex.Word.unlocked, false))
    ∧ (w ≠ FutexMutex.Word.lockedNoWaiters →
        FutexMutex.unlock w = (FutexMutex.Word.unlocked, true)) := by
  cases w with
  | unlocked => exact absurd rfl hw
  | lockedNoWaiters => exact ⟨rfl, by simp [FutexMutex.unlock, FutexMutex.UnlockFastPath], fun _ => rfl, fun h => absurd rfl h⟩
  | lockedHasWaiters =>
      refine ⟨rfl, by simp [FutexMutex.unlock, FutexMutex.UnlockFastPath],
        fun h => ?_, fun _ => rfl⟩
      exact absurd h (by decide)

theorem c8_mutex_unlock_witness :
    (FutexMutex.Word.lockedHasWaiters ≠ FutexMutex.Word.unlocked)
    ∧ ((FutexMutex.unlock FutexMutex.Word.lockedHasWaiters).1
        = FutexMutex.Word.unlocked)
    ∧ ((FutexMutex.unlock FutexMutex.Word.lockedHasWaiters).2 = true ↔
        (FutexMutex.UnlockFastPath FutexMutex.Word.lockedHasWaiters).1 = false) :=
  ⟨by decide,
    (c8_mutex_unlock FutexMutex.Word.lockedHasWaiters (by decide)).1,
    (c8_mutex_unlock FutexMutex.Word.lockedHasWaiters (by decide)).2.1⟩

namespace TicketProto

/-- Phase of one thread with respect to a `TicketLock`: outside any call,
spinning in `lock()` with a drawn ticket, or holding the lock (returned from
`lock()` or a successful `try_lock()` and not yet past `unlock()`). -/
inductive Ph where
  | out
  | waiting (τ : Nat)
  | holding (τ : Nat)
deriving DecidableEq

/-- A `TicketLock` together with the phases of `n` client threads. -/
structure St (n : Nat) where
  next_free_ticket : Nat
  owner_ticket : Nat
  ts : Fin n → Ph

/-- One atomic step of thread `t` against the `TicketLock`: the
`fetch_add` that draws a ticket in `lock()`, the acquiring read of the spin
loop, a successful or failed `try_lock()` compare-and-swap, or the
`fetch_add` of `unlock()` (each `unlock` is matched to a prior successful
acquire because only a holding thread may take it). -/
inductive TStep {n : Nat} (t : Fin n) : St n → St n → Prop where
  | draw (s : St n) : s.ts t = .out →
      TStep t s ⟨s.next_free_ticket + 1, s.owner_ticket,
        Function.update s.ts t (.waiting s.next_free_ticket)⟩
  | acquire (s : St n) (τ : Nat) : s.ts t = .waiting τ → s.owner_ticket = τ →
      TStep t s ⟨s.next_free_ticket, s.owner_ticket,
        Function.update s.ts t (.holding τ)⟩
  | tryLockOk (s : St n) : s.ts t = .out →
      s.next_free_ticket = s.owner_ticket →
      TStep t s ⟨s.next_free_ticket + 1, s.owner_ticket,
        Function.update s.ts t (.holding s.owner_ticket)⟩
  | tryLockFail (s : St n) : s.ts t = .out →
      s.next_free_ticket ≠ s.owner_ticket → TStep t s s
  | unlock (s : St n) (τ : Nat) : s.ts t = .holding τ →
      TStep t s ⟨s.next_free_ticket, s.owner_ticket + 1,
        Function.update s.ts t .out⟩

/-- The freshly constructed lock: both counters zero, no thread engaged. -/
def St.init (n : Nat) : St n := ⟨0, 0, fun _ => .out⟩

/-- States reachable by any interleaving of `lock`, `try_lock` and `unlock`
steps of the `n` threads. -/
inductive Reach (n : Nat) : St n → Prop where
  | init : Reach n (St.init n)
  | step (t : Fin n) (s s' : St n) : Reach n s → TStep t s s' → Reach n s'

/-- Inductive invariant of the ticket lock protocol. -/
def Inv {n : Nat} (s : St n) : Prop :=
  s.owner_ticket ≤ s.next_free_ticket
  ∧ (∀ t τ, s.ts t = .waiting τ →
      s.owner_ticket ≤ τ ∧ τ < s.next_free_ticket)
  ∧ (∀ t τ, s.ts t = .holding τ →
      τ = s.owner_ticket ∧ s.owner_ticket < s.next_free_ticket)
  ∧ (∀ t u τ σ, t ≠ u → s.ts t = .waiting τ → s.ts u = .waiting σ → τ ≠ σ)
  ∧ (∀ t τ, s.ts t = .holding τ →
      ∀ u σ, s.ts u = .waiting σ → s.owner_ticket < σ)
  ∧ (∀ t u τ σ, s.ts t = .holding τ → s.ts u = .holding σ → t = u)

theorem inv_reach {n : Nat} {s : St n} (h : Reach n s) : Inv s := by
  induction h with
  | init =>
      refine ⟨le_refl _, ?_, ?_, ?_, ?_, ?_⟩ <;> intros <;> simp_all [St.init]
  | step t s s' hr hst ih =>
      obtain ⟨h1, h2, h3, h4, h5, h6⟩ := ih
      cases hst with
      | draw hout =>
          simp only [Inv]
          refine ⟨by omega, ?_, ?_, ?_, ?_, ?_⟩
          · intro u τ hu
            rcases eq_or_ne u t with rfl | hne
            · simp only [Function.update_same, Ph.waiting.injEq] at hu
              omega
            · rw [Function.update_noteq hne] at hu
              have := h2 u τ hu
              omega
          · intro u τ hu
            rcases eq_or_ne u t with rfl | hne
            · simp at hu
            · rw [Function.update_noteq hne] at hu
              have := h3 u τ hu
              omega
          · intro u v τ σ huv hu hv
            rcases eq_or_ne u t with rfl | hneu
            · simp only [Function.update_same, Ph.waiting.injEq] at hu
              rw [Function.update_noteq (Ne.symm huv)] at hv
              have := h2 v σ hv
              omega
            · rw [Function.update_noteq hneu] at hu
              rcases eq_or_ne v t with rfl | hnev
              · simp only [Function.update_same, Ph.waiting.injEq] at hv
                have := h2 u τ hu
                omega
              · rw [Function.update_noteq hnev] at hv
                exact h4 u v τ σ huv hu hv
          · intro u τ hu v σ hv
            rcases eq_or_ne u t with rfl | hneu
            · simp at hu
            · rw [Function.update_noteq hneu] at hu
              rcases eq_or_ne v t with rfl | hnev
              · simp only [Function.update_same, Ph.waiting.injEq] at hv
                have := h3 u τ hu
                omega
              · rw [Function.update_noteq hnev] at hv
                exact h5 u τ hu v σ hv
          · intro u v τ σ hu hv
            rcases eq_or_ne u t with rfl | hneu
            · simp at hu
            · rw [Function.update_noteq hneu] at hu
              rcases eq_or_ne v t with rfl | hnev
              · simp at hv
              · rw [Function.update_noteq hnev] at hv
                exact h6 u v τ σ hu hv
      | acquire τ hw howner =>
          have hwr := h2 t τ hw
          simp only [Inv]
          refine ⟨h1, ?_, ?_, ?_, ?_, ?_⟩
          · intro u σ hu
            rcases eq_or_ne u t with rfl | hne
            · simp at hu
            · rw [Function.update_noteq hne] at hu
              exact h2 u σ hu
          · intro u σ hu
            rcases eq_or_ne u t with rfl | hne
            · simp only [Function.update_same, Ph.holding.injEq] at hu
              omega
            · rw [Function.update_noteq hne] at hu
              exact h3 u σ hu
          · intro u v σ ρ huv hu hv
            rcases eq_or_ne u t with rfl | hneu
            · simp at hu
            · rw [Function.update_noteq hneu] at hu
              rcases eq_or_ne v t with rfl | hnev
              · simp at hv
              · rw [Function.update_noteq hnev] at hv
                exact h4 u v σ ρ huv hu hv
          · intro u σ hu v ρ hv
            rcases eq_or_ne v t with rfl | hnev
            · simp at hv
            · rw [Function.update_noteq hnev] at hv
              rcases eq_or_ne u t with rfl | hneu
              · have hd := h4 u v τ ρ (Ne.symm hnev) hw hv
                have := h2 v ρ hv
                omega
              · rw [Function.update_noteq hneu] at hu
                exact h5 u σ hu v ρ hv
          · intro u v σ ρ hu hv
            rcases eq_or_ne u t with rfl | hneu
            · rcases eq_or_ne v u with rfl | hnev
              · rfl
              · rw [Function.update_noteq hnev] at hv
                have := h5 v ρ hv u τ hw
                have := h3 v ρ hv
                omega
            · rw [Function.update_noteq hneu] at hu
              rcases eq_or_ne v t with rfl | hnev
              · have := h5 u σ hu v τ hw
                have := h3 u σ hu
                omega
              · rw [Function.update_noteq hnev] at hv
                exact h6 u v σ ρ hu hv
      | tryLockOk hout heq =>
          simp only [Inv]
          refine ⟨by omega, ?_, ?_, ?_, ?_, ?_⟩
          · intro u σ hu
            rcases eq_or_ne u t with rfl | hne
            · simp at hu
            · rw [Function.update_noteq hne] at hu
              have := h2 u σ hu
              omega
          · intro u σ hu
            rcases eq_or_ne u t with rfl | hne
            · simp only [Function.update_same, Ph.holding.injEq] at hu
              omega
            · rw [Function.update_noteq hne] at hu
              have := h3 u σ hu
              omega
          · intro u v σ ρ huv hu hv
            rcases eq_or_ne u t with rfl | hneu
            · simp at hu
            · rw [Function.update_noteq hneu] at hu
              rcases eq_or_ne v t with rfl | hnev
              · simp at hv
              · rw [Function.update_noteq hnev] at hv
                exact h4 u v σ ρ huv hu hv
          · intro u σ hu v ρ hv
            rcases eq_or_ne v t with rfl | hnev
            · simp at hv
            · rw [Function.update_noteq hnev] at hv
              have := h2 v ρ hv
              omega
          · intro u v σ ρ hu hv
            rcases eq_or_ne u t with rfl | hneu
            · rcases eq_or_ne v u with rfl | hnev
              · rfl
              · rw [Function.update_noteq hnev] at hv
                have := h3 v ρ hv
                omega
            · rw [Function.update_noteq hneu] at hu
              rcases eq_or_ne v t with rfl | hnev
              · have := h3 u σ hu
                omega
              · rw [Function.update_noteq hnev] at hv
                exact h6 u v σ ρ hu hv
      | tryLockFail hout hne => exact ⟨h1, h2, h3, h4, h5, h6⟩
      | unlock τ hh =>
          have hhr := h3 t τ hh
          simp only [Inv]
          refine ⟨by omega, ?_, ?_, ?_, ?_, ?_⟩
          · intro u σ hu
            rcases eq_or_ne u t with rfl | hne
            · simp at hu
            · rw [Function.update_noteq hne] at hu
              have := h2 u σ hu
              have := h5 t τ hh u σ hu
              omega
          · intro u σ hu
            rcases eq_or_ne u t with rfl | hne
            · simp at hu
            · rw [Function.update_noteq hne] at hu
              have := h6 t u τ σ hh hu
              exact absurd this.symm hne
          · intro u v σ ρ huv hu hv
            rcases eq_or_ne u t with rfl | hneu
            · simp at hu
            · rw [Function.update_noteq hneu] at hu
              rcases eq_or_ne v t with rfl | hnev
              · simp at hv
              · rw [Function.update_noteq hnev] at hv
                exact h4 u v σ ρ huv hu hv
          · intro u σ hu v ρ hv
            rcases eq_or_ne u t with rfl | hneu
            · simp at hu
            · rw [Function.update_noteq hneu] at hu
              have := h6 t u τ σ hh hu
              exact absurd this.symm hneu
          · intro u v σ ρ hu hv
            rcases eq_or_ne u t with rfl | hneu
            · simp at hu
            · rw [Function.update_noteq hneu] at hu
              have := h6 t u τ σ hh hu
              exact absurd this.symm hneu

end TicketProto

theorem ticket_waiting_state_reachable :
    TicketProto.Reach 1 ⟨1, 0, fun _ => TicketProto.Ph.waiting 0⟩ := by
  have hstate : (⟨1, 0, fun _ => TicketProto.Ph.waiting 0⟩ : TicketProto.St 1)
      = ⟨0 + 1, 0, Function.update (TicketProto.St.init 1).ts 0
          (TicketProto.Ph.waiting 0)⟩ := by
    refine congrArg (TicketProto.St.mk 1 0) ?_
    funext u
    fin_cases u
    simp [TicketProto.St.init]
  rw [hstate]
  exact TicketProto.Reach.step 0 _ _ TicketProto.Reach.init
    (TicketProto.TStep.draw _ rfl)

/-- C7 counterexample: the claimed equivalence fails in its right-to-left
direction.  In the reachable state where the single thread has drawn ticket
`0` inside `lock()` but has not yet observed `owner_ticket`, its drawn ticket
equals `owner_ticket`, yet the thread does not hold the lock (it is still
spinning in `lock()`). -/
theorem c7_counterexample_ticket_equals_owner_without_holding :
    TicketProto.Reach 1 ⟨1, 0, fun _ => TicketProto.Ph.waiting 0⟩
    ∧ (⟨1, 0, fun _ => TicketProto.Ph.waiting 0⟩ : TicketProto.St 1).ts 0
        = TicketProto.Ph.waiting 0
    ∧ (⟨1, 0, fun _ => TicketProto.Ph.waiting 0⟩ : TicketProto.St 1).owner_ticket
        = 0
    ∧ (⟨1, 0, fun _ => TicketProto.Ph.waiting 0⟩ : TicketProto.St 1).ts 0
        ≠ TicketProto.Ph.holding 0 :=
  ⟨ticket_waiting_state_reachable, rfl, rfl, by simp⟩

/-- C7 (amended): in every reachable state of the ticket lock, under any
sequence of `lock`, `try_lock` and `unlock` steps with every `unlock` matched
to a prior successful acquire, `owner_ticket ≤ next_free_ticket` holds, every
thread holding the lock has drawn ticket equal to `owner_ticket`, and at most
one thread holds the lock; the converse of the ownership condition fails only
for a thread still spinning in `lock()` whose ticket has just become current
(see the counterexample). -/
theorem c7_amended_ticket_lock_invariant (n : Nat) (s : TicketProto.St n)
    (h : TicketProto.Reach n s) :
    s.owner_ticket ≤ s.next_free_ticket
    ∧ (∀ t τ, s.ts t = TicketProto.Ph.holding τ → τ = s.owner_ticket)
    ∧ (∀ t u τ σ, s.ts t = TicketProto.Ph.holding τ →
        s.ts u = TicketProto.Ph.holding σ → t = u) := by
  obtain ⟨h1, _, h3, _, _, h6⟩ := TicketProto.inv_reach h
  exact ⟨h1, fun t τ ht => (h3 t τ ht).1, h6⟩

theorem c7_amended_ticket_lock_invariant_witness :
    TicketProto.Reach 1 ⟨1, 0, fun _ => TicketProto.Ph.waiting 0⟩
    ∧ ((⟨1, 0, fun _ => TicketProto.Ph.waiting 0⟩ : TicketProto.St 1).owner_ticket
        ≤ (⟨1, 0, fun _ => TicketProto.Ph.waiting 0⟩ : TicketProto.St 1).next_free_ticket
      ∧ (∀ t τ, (⟨1, 0, fun _ => TicketProto.Ph.waiting 0⟩ : TicketProto.St 1).ts t
            = TicketProto.Ph.holding τ → τ = 0)
      ∧ (∀ t u τ σ,
          (⟨1, 0, fun _ => TicketProto.Ph.waiting 0⟩ : TicketProto.St 1).ts t
            = TicketProto.Ph.holding τ →
          (⟨1, 0, fun _ => TicketProto.Ph.waiting 0⟩ : TicketProto.St 1).ts u
            = TicketProto.Ph.holding σ → t = u)) :=
  ⟨ticket_waiting_state_reachable,
    c7_amended_ticket_lock_invariant 1 _ ticket_waiting_state_reachable⟩

namespace LockSys

/-- Phase of a client thread as seen by a lock protocol: outside the lock,
inside the acquire path (with protocol-specific program counter `A`), holding
the lock, or inside the release path (program counter `R`). -/
inductive LPhase (A R : Type) where
  | out
  | acq (a : A)
  | hold
  | rel (r : R)

/-- A phase inside the critical section or the release path. -/
def LPhase.busy {A R : Type} : LPhase A R → Prop
  | .hold => True
  | .rel _ => True
  | _ => False

/-- A lock protocol for `n` threads under sequentially consistent
interleaving: global lock state `L`, acquire- and release-path program
counters `A`/`R` with their initial values, the internal acquire steps, the
step that acquires the lock, the internal release steps, and the step that
releases the lock.  Each relation describes one atomic operation of the
C++ source. -/
structure LockProto (n : Nat) where
  L : Type
  A : Type
  R : Type
  linit : L
  a0 : A
  r0 : R
  AStep : Fin n → A → L → A → L → Prop
  AEnter : Fin n → A → L → L → Prop
  RStep : Fin n → R → L → R → L → Prop
  RExit : Fin n → R → L → L → Prop

/-- Local state of one client thread of the shared-counter experiment, where
`k` counts completed increments: idle between iterations, acquiring,
reading the shared counter, writing back the read value plus one (the
unsynchronized increment), or releasing. -/
inductive TState (A R : Type) where
  | idle (k : Nat)
  | acq (k : Nat) (a : A)
  | readC (k : Nat)
  | writeC (k : Nat) (l : Nat)
  | rel (k : Nat) (r : R)

def TState.phase {A R : Type} : TState A R → LPhase A R
  | .idle _ => .out
  | .acq _ a => .acq a
  | .readC _ => .hold
  | .writeC _ _ => .hold
  | .rel _ r => .rel r

/-- Number of counter increments already performed by a thread in this local
state (the write happens on entry to the release phase). -/
def TState.contrib {A R : Type} : TState A R → Nat
  | .idle k => k
  | .acq k _ => k
  | .readC k => k
  | .writeC k _ => k
  | .rel k _ => k + 1

theorem TState.contrib_idle {A R : Type} (k : Nat) :
    (TState.idle k : TState A R).contrib = k := rfl

theorem TState.contrib_acq {A R : Type} (k : Nat) (a : A) :
    (TState.acq k a : TState A R).contrib = k := rfl

theorem TState.contrib_readC {A R : Type} (k : Nat) :
    (TState.readC k : TState A R).contrib = k := rfl

theorem TState.contrib_writeC {A R : Type} (k l : Nat) :
    (TState.writeC k l : TState A R).contrib = k := rfl

theorem TState.contrib_rel {A R : Type} (k : Nat) (r : R) :
    (TState.rel k r : TState A R).contrib = k + 1 := rfl

/-- Global state of the experiment: lock state, shared counter, and the `n`
thread states. -/
structure Sys (n : Nat) (P : LockProto n) where
  lock : P.L
  ctr : Nat
  th : Fin n → TState P.A P.R

/-- One atomic step of thread `t`: begin an acquisition (each thread performs
`M` locked increments), an internal acquire step, the acquiring step, the
read of the shared counter, the write of the incremented value, an internal
release step, or the releasing step. -/
inductive Step {n : Nat} (P : LockProto n) (M : Nat) (t : Fin n) :
    Sys n P → Sys n P → Prop where
  | start (s : Sys n P) (k : Nat) : s.th t = .idle k → k < M →
      Step P M t s ⟨s.lock, s.ctr, Function.update s.th t (.acq k P.a0)⟩
  | astep (s : Sys n P) (k : Nat) (a a' : P.A) (l' : P.L) :
      s.th t = .acq k a → P.AStep t a s.lock a' l' →
      Step P M t s ⟨l', s.ctr, Function.update s.th t (.acq k a')⟩
  | enter (s : Sys n P) (k : Nat) (a : P.A) (l' : P.L) :
      s.th t = .acq k a → P.AEnter t a s.lock l' →
      Step P M t s ⟨l', s.ctr, Function.update s.th t (.readC k)⟩
  | read (s : Sys n P) (k : Nat) : s.th t = .readC k →
      Step P M t s ⟨s.lock, s.ctr, Function.update s.th t (.writeC k s.ctr)⟩
  | write (s : Sys n P) (k l : Nat) : s.th t = .writeC k l →
      Step P M t s ⟨s.lock, l + 1, Function.update s.th t (.rel k P.r0)⟩
  | rstep (s : Sys n P) (k : Nat) (r r' : P.R) (l' : P.L) :
      s.th t = .rel k r → P.RStep t r s.lock r' l' →
      Step P M t s ⟨l', s.ctr, Function.update s.th t (.rel k r')⟩
  | rexit (s : Sys n P) (k : Nat) (r : P.R) (l' : P.L) :
      s.th t = .rel k r → P.RExit t r s.lock l' →
      Step P M t s ⟨l', s.ctr, Function.update s.th t (.idle (k + 1))⟩

/-- The initial state: fresh lock, counter zero, all threads idle. -/
def Sys.start (n : Nat) (P : LockProto n) : Sys n P :=
  ⟨P.linit, 0, fun _ => .idle 0⟩

/-- States reachable under arbitrary interleaving of the threads. -/
inductive Reach {n : Nat} (P : LockProto n) (M : Nat) : Sys n P → Prop where
  | init : Reach P M (Sys.start n P)
  | step (t : Fin n) (s s' : Sys n P) :
      Reach P M s → Step P M t s s' → Reach P M s'

/-- Phase map of a thread-state assignment. -/
def phaseMap {n : Nat} {A R : Type} (th : Fin n → TState A R) :
    Fin n → LPhase A R := fun u => (th u).phase

/-- Proof obligations making a protocol a mutual-exclusion lock: an invariant
`J` on lock state and phases, preserved by every kind of step, implying that
at most one thread is ever busy (holding or releasing). -/
structure GoodLock {n : Nat} (P : LockProto n) where
  J : P.L → (Fin n → LPhase P.A P.R) → Prop
  j_init : J P.linit fun _ => .out
  j_start : ∀ l ph t, J l ph → ph t = .out →
      J l (Function.update ph t (.acq P.a0))
  j_astep : ∀ l ph t a a' l', J l ph → ph t = .acq a → P.AStep t a l a' l' →
      J l' (Function.update ph t (.acq a'))
  j_enter : ∀ l ph t a l', J l ph → ph t = .acq a → P.AEnter t a l l' →
      J l' (Function.update ph t .hold)
  j_rel : ∀ l ph t, J l ph → ph t = .hold →
      J l (Function.update ph t (.rel P.r0))
  j_rstep : ∀ l ph t r r' l', J l ph → ph t = .rel r → P.RStep t r l r' l' →
      J l' (Function.update ph t (.rel r'))
  j_rexit : ∀ l ph t r l', J l ph → ph t = .rel r → P.RExit t r l l' →
      J l' (Function.update ph t .out)
  j_mutex : ∀ l ph t u, J l ph → (ph t).busy → (ph u).busy → t = u

theorem phaseMap_update {n : Nat} {A R : Type} (th : Fin n → TState A R)
    (t : Fin n) (v : TState A R) :
    phaseMap (Function.update th t v)
      = Function.update (phaseMap th) t v.phase := by
  funext u
  rcases eq_or_ne u t with rfl | h
  · simp [phaseMap]
  · simp [phaseMap, Function.update_noteq h]

theorem contrib_sum_update {n : Nat} {A R : Type} (th : Fin n → TState A R)
    (t : Fin n) (v : TState A R) :
    (∑ u : Fin n, (Function.update th t v u).contrib) + (th t).contrib
      = (∑ u : Fin n, (th u).contrib) + v.contrib := by
  have h : ∀ u, (Function.update th t v u).contrib
      = Function.update (fun w => (th w).contrib) t v.contrib u := by
    intro u
    rcases eq_or_ne u t with rfl | h
    · simp
    · simp [Function.update_noteq h]
  have hs : (∑ u : Fin n, (Function.update th t v u).contrib)
      = ∑ u : Fin n, Function.update (fun w => (th w).contrib) t v.contrib u :=
    Finset.sum_congr rfl fun u _ => h u
  rw [hs, Finset.sum_update_of_mem (Finset.mem_univ t),
    Finset.sdiff_singleton_eq_erase,
    ← Finset.add_sum_erase Finset.univ (fun w => (th w).contrib)
      (Finset.mem_univ t)]
  ring

/-- The generic inductive invariant of the counter experiment: the lock
invariant holds of the phases, the counter equals the total number of writes
performed, and a thread about to write holds the current counter value. -/
def GInv {n : Nat} {P : LockProto n} (G : GoodLock P) (s : Sys n P) : Prop :=
  G.J s.lock (phaseMap s.th)
  ∧ s.ctr = ∑ u : Fin n, (s.th u).contrib
  ∧ ∀ u k l, s.th u = .writeC k l → s.ctr = l

theorem ginv_step {n : Nat} {P : LockProto n} (G : GoodLock P) {M : Nat}
    {t : Fin n} {s s' : Sys n P} (hs : GInv G s) (hst : Step P M t s s') :
    GInv G s' := by
  obtain ⟨hJ, hsum, hwr⟩ := hs
  have hbusywrite : ∀ u k l, s.th u = .writeC k l → (phaseMap s.th u).busy := by
    intro u k l hu
    simp [phaseMap, hu, TState.phase, LPhase.busy]
  cases hst with
  | start k hidle hk =>
      simp only [GInv]
      refine ⟨?_, ?_, ?_⟩
      · rw [phaseMap_update]
        exact G.j_start s.lock (phaseMap s.th) t hJ
          (by simp [phaseMap, hidle, TState.phase])
      · have hc := contrib_sum_update s.th t (.acq k P.a0)
        rw [hidle] at hc
        simp only [TState.contrib_idle, TState.contrib_acq,
          TState.contrib_readC, TState.contrib_writeC, TState.contrib_rel] at hc
        omega
      · intro u k' l' hu
        rcases eq_or_ne u t with rfl | hne
        · rw [Function.update_same] at hu
          cases hu
        · rw [Function.update_noteq hne] at hu
          exact hwr u k' l' hu
  | astep k a a' l' hacq hA =>
      simp only [GInv]
      refine ⟨?_, ?_, ?_⟩
      · rw [phaseMap_update]
        exact G.j_astep s.lock (phaseMap s.th) t a a' l' hJ
          (by simp [phaseMap, hacq, TState.phase]) hA
      · have hc := contrib_sum_update s.th t (.acq k a')
        rw [hacq] at hc
        simp only [TState.contrib_idle, TState.contrib_acq,
          TState.contrib_readC, TState.contrib_writeC, TState.contrib_rel] at hc
        omega
      · intro u k' l'' hu
        rcases eq_or_ne u t with rfl | hne
        · rw [Function.update_same] at hu
          cases hu
        · rw [Function.update_noteq hne] at hu
          exact hwr u k' l'' hu
  | enter k a l' hacq hA =>
      simp only [GInv]
      refine ⟨?_, ?_, ?_⟩
      · rw [phaseMap_update]
        exact G.j_enter s.lock (phaseMap s.th) t a l' hJ
          (by simp [phaseMap, hacq, TState.phase]) hA
      · have hc := contrib_sum_update s.th t (.readC k)
        rw [hacq] at hc
        simp only [TState.contrib_idle, TState.contrib_acq,
          TState.contrib_readC, TState.contrib_writeC, TState.contrib_rel] at hc
        omega
      · intro u k' l'' hu
        rcases eq_or_ne u t with rfl | hne
        · rw [Function.update_same] at hu
          cases hu
        · rw [Function.update_noteq hne] at hu
          exact hwr u k' l'' hu
  | read k hrd =>
      simp only [GInv]
      refine ⟨?_, ?_, ?_⟩
      · rw [phaseMap_update]
        have h1 : (TState.writeC k s.ctr).phase = phaseMap s.th t := by
          simp [phaseMap, hrd, TState.phase]
        rw [h1, Function.update_eq_self]
        exact hJ
      · have hc := contrib_sum_update s.th t (.writeC k s.ctr)
        rw [hrd] at hc
        simp only [TState.contrib_idle, TState.contrib_acq,
          TState.contrib_readC, TState.contrib_writeC, TState.contrib_rel] at hc
        omega
      · intro u k' l'' hu
        rcases eq_or_ne u t with rfl | hne
        · rw [Function.update_same] at hu
          cases hu
          rfl
        · rw [Function.update_noteq hne] at hu
          exact hwr u k' l'' hu
  | write k l hwrt =>
      simp only [GInv]
      refine ⟨?_, ?_, ?_⟩
      · rw [phaseMap_update]
        exact G.j_rel s.lock (phaseMap s.th) t hJ
          (by simp [phaseMap, hwrt, TState.phase])
      · have hc := contrib_sum_update s.th t (.rel k P.r0)
        rw [hwrt] at hc
        have hcl := hwr t k l hwrt
        simp only [TState.contrib_idle, TState.contrib_acq,
          TState.contrib_readC, TState.contrib_writeC, TState.contrib_rel] at hc
        omega
      · intro u k' l'' hu
        rcases eq_or_ne u t with rfl | hne
        · rw [Function.update_same] at hu
          cases hu
        · rw [Function.update_noteq hne] at hu
          exact absurd (G.j_mutex s.lock (phaseMap s.th) u t hJ
            (hbusywrite u k' l'' hu) (hbusywrite t k l hwrt)) hne
  | rstep k r r' l' hrel hR =>
      simp only [GInv]
      refine ⟨?_, ?_, ?_⟩
      · rw [phaseMap_update]
        exact G.j_rstep s.lock (phaseMap s.th) t r r' l' hJ
          (by simp [phaseMap, hrel, TState.phase]) hR
      · have hc := contrib_sum_update s.th t (.rel k r')
        rw [hrel] at hc
        simp only [TState.contrib_idle, TState.contrib_acq,
          TState.contrib_readC, TState.contrib_writeC, TState.contrib_rel] at hc
        omega
      · intro u k' l'' hu
        rcases eq_or_ne u t with rfl | hne
        · rw [Function.update_same] at hu
          cases hu
        · rw [Function.update_noteq hne] at hu
          exact hwr u k' l'' hu
  | rexit k r l' hrel hR =>
      simp only [GInv]
      refine ⟨?_, ?_, ?_⟩
      · rw [phaseMap_update]
        exact G.j_rexit s.lock (phaseMap s.th) t r l' hJ
          (by simp [phaseMap, hrel, TState.phase]) hR
      · have hc := contrib_sum_update s.th t (.idle (k + 1))
        rw [hrel] at hc
        simp only [TState.contrib_idle, TState.contrib_acq,
          TState.contrib_readC, TState.contrib_writeC, TState.contrib_rel] at hc
        omega
      · intro u k' l'' hu
        rcases eq_or_ne u t with rfl | hne
        · rw [Function.update_same] at hu
          cases hu
        · rw [Function.update_noteq hne] at hu
          exact hwr u k' l'' hu

theorem ginv_reach {n : Nat} {P : LockProto n} (G : GoodLock P) {M : Nat}
    {s : Sys n P} (h : Reach P M s) : GInv G s := by
  induction h with
  | init =>
      refine ⟨?_, by simp [Sys.start, TState.contrib], ?_⟩
      · show G.J P.linit (phaseMap fun _ => TState.idle 0)
        have heq : phaseMap (fun _ : Fin n => (TState.idle 0 : TState P.A P.R))
            = fun _ => LPhase.out := by
          funext u
          rfl
        rw [heq]
        exact G.j_init
      · intro u k l hu
        simp [Sys.start] at hu
  | step t s s' hr hst ih => exact ginv_step G ih hst

/-- Generic form of the counter theorem: in any reachable state in which
every thread has completed its `M` increments, the shared counter equals
`n * M`. -/
theorem counter_exact {n : Nat} {P : LockProto n} (G : GoodLock P) {M : Nat}
    {s : Sys n P} (h : Reach P M s) (hdone : ∀ t, s.th t = .idle M) :
    s.ctr = n * M := by
  obtain ⟨_, hsum, _⟩ := ginv_reach G h
  rw [hsum]
  have hc : ∀ u : Fin n, (s.th u).contrib = M := by
    intro u
    rw [hdone u]
    rfl
  simp only [hc, Finset.sum_const, Finset.card_univ, Fintype.card_fin,
    smul_eq_mul]

theorem busy_update_iff {n : Nat} {A R : Type} (ph : Fin n → LPhase A R)
    (t : Fin n) (v : LPhase A R) (hv : v.busy ↔ (ph t).busy) :
    ∀ u, ((Function.update ph t v) u).busy ↔ (ph u).busy := by
  intro u
  rcases eq_or_ne u t with rfl | hne
  · rw [Function.update_same]
    exact hv
  · rw [Function.update_noteq hne]

/-- The `TASSpinLock` protocol.  Lock state is the `locked_` flag; a failed
`compare_exchange` of `lock()` (equivalently an iteration of the inner
relaxed-read spin loop) observes `true` and changes nothing; the acquiring
step is the compare-and-swap from `false` to `true`; `unlock()` stores
`false`. -/
def ttas (n : Nat) : LockProto n where
  L := Bool
  A := Unit
  R := Unit
  linit := false
  a0 := ()
  r0 := ()
  AStep := fun _ _ l _ l' => l = true ∧ l' = true
  AEnter := fun _ _ l l' => l = false ∧ l' = true
  RStep := fun _ _ _ _ _ => False
  RExit := fun _ _ _ l' => l' = false

/-- Invariant of the TTAS spinlock: some thread is busy only when the flag is
set, and at most one thread is busy. -/
def ttasJ {n : Nat} (l : Bool) (ph : Fin n → LPhase Unit Unit) : Prop :=
  (∀ t, (ph t).busy → l = true)
  ∧ ∀ t u, (ph t).busy → (ph u).busy → t = u

def ttasGood (n : Nat) : GoodLock (ttas n) where
  J := ttasJ
  j_init := ⟨fun _ h => h.elim, fun _ _ ht _ => ht.elim⟩
  j_start := by
    intro l ph t hJ hout
    obtain ⟨h1, h2⟩ := hJ
    constructor
    · intro u hu
      rcases eq_or_ne u t with rfl | hne
      · rw [Function.update_same] at hu
        exact hu.elim
      · rw [Function.update_noteq hne] at hu
        exact h1 u hu
    · intro u v hu hv
      rcases eq_or_ne u t with rfl | hneu
      · rw [Function.update_same] at hu
        exact hu.elim
      · rw [Function.update_noteq hneu] at hu
        rcases eq_or_ne v t with rfl | hnev
        · rw [Function.update_same] at hv
          exact hv.elim
        · rw [Function.update_noteq hnev] at hv
          exact h2 u v hu hv
  j_astep := by
    intro l ph t a a' l' hJ hacq hA
    obtain ⟨h1, h2⟩ := hJ
    constructor
    · intro u _
      exact hA.2
    · intro u v hu hv
      rcases eq_or_ne u t with rfl | hneu
      · rw [Function.update_same] at hu
        exact hu.elim
      · rw [Function.update_noteq hneu] at hu
        rcases eq_or_ne v t with rfl | hnev
        · rw [Function.update_same] at hv
          exact hv.elim
        · rw [Function.update_noteq hnev] at hv
          exact h2 u v hu hv
  j_enter := by
    intro l ph t a l' hJ hacq hA
    obtain ⟨h1, h2⟩ := hJ
    have hnone : ∀ u, ¬ (ph u).busy := by
      intro u hu
      rw [h1 u hu] at hA
      exact absurd hA.1 (by simp)
    constructor
    · intro u _
      exact hA.2
    · intro u v hu hv
      rcases eq_or_ne u t with rfl | hneu
      · rcases eq_or_ne v u with rfl | hnev
        · rfl
        · rw [Function.update_noteq hnev] at hv
          exact absurd hv (hnone v)
      · rw [Function.update_noteq hneu] at hu
        exact absurd hu (hnone u)
  j_rel := by
    intro l ph t hJ hph
    obtain ⟨h1, h2⟩ := hJ
    have hiff := busy_update_iff ph t (.rel (ttas n).r0)
      (by simp [hph, LPhase.busy])
    exact ⟨fun u hu => h1 u ((hiff u).mp hu),
      fun u v hu hv => h2 u v ((hiff u).mp hu) ((hiff v).mp hv)⟩
  j_rstep := by
    intro l ph t r r' l' hJ hph hR
    exact hR.elim
  j_rexit := by
    intro l ph t r l' hJ hph hR
    obtain ⟨h1, h2⟩ := hJ
    have htb : (ph t).busy := by
      rw [hph]
      trivial
    constructor
    · intro u hu
      rcases eq_or_ne u t with rfl | hne
      · rw [Function.update_same] at hu
        exact hu.elim
      · rw [Function.update_noteq hne] at hu
        exact absurd (h2 u t hu htb) hne
    · intro u v hu hv
      rcases eq_or_ne u t with rfl | hneu
      · rw [Function.update_same] at hu
        exact hu.elim
      · rw [Function.update_noteq hneu] at hu
        exact absurd (h2 u t hu htb) hneu
  j_mutex := fun l ph t u hJ ht hu => hJ.2 t u ht hu

/-- Program counter of the acquire path of `Mutex::lock`: about to run the
fast-path compare-and-swap, about to announce waiters
(`LockedNoWaiters → LockedHasWaiters`), blocked in `futex::Wait`, or about to
run the wake-up compare-and-swap `Unlocked → LockedHasWaiters`. -/
inductive FA where
  | fastPath
  | announce
  | waiting
  | retry
deriving DecidableEq

/-- The `Mutex` (futex) protocol.  Lock state is the three-valued `lock_`
word.  `futex::Wait` blocks the thread; since blocking changes no shared
state, its return (wake-up or the word changing) is a nondeterministic step.
The release path runs `UnlockFastPath` and, when that compare-and-swap fails,
stores `Unlocked` and issues the wake-all syscall (which changes no shared
state). -/
def futex (n : Nat) : LockProto n where
  L := FutexMutex.Word
  A := FA
  R := Bool
  linit := .unlocked
  a0 := .fastPath
  r0 := false
  AStep := fun _ a l a' l' =>
    (a = .fastPath ∧ l ≠ .unlocked ∧ a' = .announce ∧ l' = l)
    ∨ (a = .announce ∧ a' = .waiting
        ∧ l' = (if l = .lockedNoWaiters then .lockedHasWaiters else l))
    ∨ (a = .waiting ∧ a' = .retry ∧ l' = l)
    ∨ (a = .retry ∧ l ≠ .unlocked ∧ a' = .announce ∧ l' = l)
  AEnter := fun _ a l l' =>
    (a = .fastPath ∧ l = .unlocked ∧ l' = .lockedNoWaiters)
    ∨ (a = .retry ∧ l = .unlocked ∧ l' = .lockedHasWaiters)
  RStep := fun _ r l r' l' =>
    r = false ∧ l ≠ .lockedNoWaiters ∧ r' = true ∧ l' = l
  RExit := fun _ r l l' =>
    (r = false ∧ l = .lockedNoWaiters ∧ l' = .unlocked)
    ∨ (r = true ∧ l' = .unlocked)

/-- Invariant of the futex mutex: some thread is busy only when the word is
not `Unlocked`, and at most one thread is busy. -/
def futexJ {n : Nat} (l : FutexMutex.Word)
    (ph : Fin n → LPhase FA Bool) : Prop :=
  (∀ t, (ph t).busy → l ≠ .unlocked)
  ∧ ∀ t u, (ph t).busy → (ph u).busy → t = u

def futexGood (n : Nat) : GoodLock (futex n) where
  J := futexJ
  j_init := ⟨fun _ h => h.elim, fun _ _ ht _ => ht.elim⟩
  j_start := by
    intro l ph t hJ hout
    obtain ⟨h1, h2⟩ := hJ
    constructor
    · intro u hu
      rcases eq_or_ne u t with rfl | hne
      · rw [Function.update_same] at hu
        exact hu.elim
      · rw [Function.update_noteq hne] at hu
        exact h1 u hu
    · intro u v hu hv
      rcases eq_or_ne u t with rfl | hneu
      · rw [Function.update_same] at hu
        exact hu.elim
      · rw [Function.update_noteq hneu] at hu
        rcases eq_or_ne v t with rfl | hnev
        · rw [Function.update_same] at hv
          exact hv.elim
        · rw [Function.update_noteq hnev] at hv
          exact h2 u v hu hv
  j_astep := by
    intro l ph t a a' l' hJ hacq hA
    obtain ⟨h1, h2⟩ := hJ
    have hbusy : ∀ u, ((Function.update ph t (LPhase.acq a')) u).busy →
        (ph u).busy := by
      intro u hu
      rcases eq_or_ne u t with rfl | hne
      · rw [Function.update_same] at hu
        exact hu.elim
      · rwa [Function.update_noteq hne] at hu
    constructor
    · intro u hu
      have hb := h1 u (hbusy u hu)
      rcases hA with ⟨_, _, _, hl⟩ | ⟨_, _, hl⟩ | ⟨_, _, hl⟩ | ⟨_, _, _, hl⟩
      · rw [hl]
        exact hb
      · rw [hl]
        split
        · simp
        · exact hb
      · rw [hl]
        exact hb
      · rw [hl]
        exact hb
    · intro u v hu hv
      exact h2 u v (hbusy u hu) (hbusy v hv)
  j_enter := by
    intro l ph t a l' hJ hacq hA
    obtain ⟨h1, h2⟩ := hJ
    have hlu : l = .unlocked := by
      rcases hA with ⟨_, hl, _⟩ | ⟨_, hl, _⟩ <;> exact hl
    have hnone : ∀ u, ¬ (ph u).busy := fun u hu => absurd hlu (h1 u hu)
    constructor
    · intro u _
      rcases hA with ⟨_, _, hl⟩ | ⟨_, _, hl⟩ <;> rw [hl] <;> simp
    · intro u v hu hv
      rcases eq_or_ne u t with rfl | hneu
      · rcases eq_or_ne v u with rfl | hnev
        · rfl
        · rw [Function.update_noteq hnev] at hv
          exact absurd hv (hnone v)
      · rw [Function.update_noteq hneu] at hu
        exact absurd hu (hnone u)
  j_rel := by
    intro l ph t hJ hph
    obtain ⟨h1, h2⟩ := hJ
    have hiff := busy_update_iff ph t (.rel (futex n).r0)
      (by simp [hph, LPhase.busy])
    exact ⟨fun u hu => h1 u ((hiff u).mp hu),
      fun u v hu hv => h2 u v ((hiff u).mp hu) ((hiff v).mp hv)⟩
  j_rstep := by
    intro l ph t r r' l' hJ hph hR
    obtain ⟨h1, h2⟩ := hJ
    have hiff := busy_update_iff ph t (.rel r') (by simp [hph, LPhase.busy])
    rw [hR.2.2.2]
    exact ⟨fun u hu => h1 u ((hiff u).mp hu),
      fun u v hu hv => h2 u v ((hiff u).mp hu) ((hiff v).mp hv)⟩
  j_rexit := by
    intro l ph t r l' hJ hph hR
    obtain ⟨h1, h2⟩ := hJ
    have htb : (ph t).busy := by
      rw [hph]
      trivial
    constructor
    · intro u hu
      rcases eq_or_ne u t with rfl | hne
      · rw [Function.update_same] at hu
        exact hu.elim
      · rw [Function.update_noteq hne] at hu
        exact absurd (h2 u t hu htb) hne
    · intro u v hu hv
      rcases eq_or_ne u t with rfl | hneu
      · rw [Function.update_same] at hu
        exact hu.elim
      · rw [Function.update_noteq hneu] at hu
        exact absurd (h2 u t hu htb) hneu
  j_mutex := fun l ph t u hJ ht hu => hJ.2 t u ht hu

/-- The `TicketLock` protocol (for C1 the threads acquire via `lock()`).
Lock state is the pair (`next_free_ticket_`, `owner_ticket_`); the acquire
program counter records the drawn ticket, if any.  `lock()` first draws a
ticket with `fetch_add` on `next_free_ticket_`, then spins reading
`owner_ticket_`; the acquiring step is the read that observes the drawn
ticket; `unlock()` is `fetch_add` on `owner_ticket_`. -/
def ticket (n : Nat) : LockProto n where
  L := Nat × Nat
  A := Option Nat
  R := Unit
  linit := (0, 0)
  a0 := none
  r0 := ()
  AStep := fun _ a l a' l' =>
    (a = none ∧ a' = some l.1 ∧ l' = (l.1 + 1, l.2))
    ∨ (∃ τ, a = some τ ∧ l.2 ≠ τ ∧ a' = a ∧ l' = l)
  AEnter := fun _ a l l' => (∃ τ, a = some τ ∧ l.2 = τ) ∧ l' = l
  RStep := fun _ _ _ _ _ => False
  RExit := fun _ _ l l' => l' = (l.1, l.2 + 1)

/-- Invariant of the ticket lock: the owner counter never exceeds the free
counter; drawn tickets lie in `[owner, next)` and are pairwise distinct; when
some thread is busy, the owner counter is strictly below the free counter and
strictly below every drawn ticket; at most one thread is busy. -/
def ticketJ {n : Nat} (l : Nat × Nat)
    (ph : Fin n → LPhase (Option Nat) Unit) : Prop :=
  l.2 ≤ l.1
  ∧ (∀ t τ, ph t = .acq (some τ) → l.2 ≤ τ ∧ τ < l.1)
  ∧ (∀ t u τ σ, t ≠ u → ph t = .acq (some τ) → ph u = .acq (some σ) → τ ≠ σ)
  ∧ (∀ t, (ph t).busy → l.2 < l.1 ∧ ∀ u σ, ph u = .acq (some σ) → l.2 < σ)
  ∧ (∀ t u, (ph t).busy → (ph u).busy → t = u)

def ticketGood (n : Nat) : GoodLock (ticket n) where
  J := ticketJ
  j_init := by
    refine ⟨le_refl _, ?_, ?_, ?_, ?_⟩ <;> intro t <;> intros <;>
      simp_all [LPhase.busy]
  j_start := by
    intro l ph t hJ hout
    obtain ⟨h1, h2, h3, h4, h5⟩ := hJ
    have hph : ∀ u τ, Function.update ph t (LPhase.acq (ticket n).a0) u
        = .acq (some τ) → ph u = .acq (some τ) := by
      intro u τ hu
      rcases eq_or_ne u t with rfl | hne
      · rw [Function.update_same] at hu
        cases hu
      · rwa [Function.update_noteq hne] at hu
    have hbusy : ∀ u, ((Function.update ph t (LPhase.acq (ticket n).a0)) u).busy
        → (ph u).busy := by
      intro u hu
      rcases eq_or_ne u t with rfl | hne
      · rw [Function.update_same] at hu
        exact hu.elim
      · rwa [Function.update_noteq hne] at hu
    refine ⟨h1, ?_, ?_, ?_, ?_⟩
    · intro u τ hu
      exact h2 u τ (hph u τ hu)
    · intro u v τ σ huv hu hv
      exact h3 u v τ σ huv (hph u τ hu) (hph v σ hv)
    · intro u hu
      obtain ⟨ha, hb⟩ := h4 u (hbusy u hu)
      exact ⟨ha, fun v σ hv => hb v σ (hph v σ hv)⟩
    · intro u v hu hv
      exact h5 u v (hbusy u hu) (hbusy v hv)
  j_astep := by
    intro l ph t a a' l' hJ hacq hA
    obtain ⟨h1, h2, h3, h4, h5⟩ := hJ
    rcases hA with ⟨ha, ha', hl⟩ | ⟨τ, ha, hown, ha', hl⟩
    · subst ha ha' hl
      refine ⟨by omega, ?_, ?_, ?_, ?_⟩
      · intro u σ hu
        rcases eq_or_ne u t with rfl | hne
        · rw [Function.update_same] at hu
          injection hu with hu
          injection hu with hu
          omega
        · rw [Function.update_noteq hne] at hu
          have := h2 u σ hu
          omega
      · intro u v σ ρ huv hu hv
        rcases eq_or_ne u t with rfl | hneu
        · rw [Function.update_same] at hu
          injection hu with hu
          injection hu with hu
          rw [Function.update_noteq (Ne.symm huv)] at hv
          have := h2 v ρ hv
          omega
        · rw [Function.update_noteq hneu] at hu
          rcases eq_or_ne v t with rfl | hnev
          · rw [Function.update_same] at hv
            injection hv with hv
            injection hv with hv
            have := h2 u σ hu
            omega
          · rw [Function.update_noteq hnev] at hv
            exact h3 u v σ ρ huv hu hv
      · intro u hu
        have hub : (ph u).busy := by
          rcases eq_or_ne u t with rfl | hne
          · rw [Function.update_same] at hu
            exact hu.elim
          · rwa [Function.update_noteq hne] at hu
        obtain ⟨ha, hb⟩ := h4 u hub
        refine ⟨by omega, ?_⟩
        intro v σ hv
        rcases eq_or_ne v t with rfl | hnev
        · rw [Function.update_same] at hv
          injection hv with hv
          injection hv with hv
          omega
        · rw [Function.update_noteq hnev] at hv
          exact hb v σ hv
      · intro u v hu hv
        have hub : (ph u).busy := by
          rcases eq_or_ne u t with rfl | hne
          · rw [Function.update_same] at hu
            exact hu.elim
          · rwa [Function.update_noteq hne] at hu
        have hvb : (ph v).busy := by
          rcases eq_or_ne v t with rfl | hne
          · rw [Function.update_same] at hv
            exact hv.elim
          · rwa [Function.update_noteq hne] at hv
        exact h5 u v hub hvb
    · subst hl
      have hupd : Function.update ph t (LPhase.acq a') = ph := by
        rw [ha', ← hacq, Function.update_eq_self]
      rw [hupd]
      exact ⟨h1, h2, h3, h4, h5⟩
  j_enter := by
    intro l ph t a l' hJ hacq hA
    obtain ⟨⟨τ, ha, hown⟩, hl⟩ := hA
    subst ha hl
    obtain ⟨h1, h2, h3, h4, h5⟩ := hJ
    have htw := h2 t τ hacq
    have hnobusy : ∀ u, ¬ (ph u).busy := by
      intro u hu
      have := (h4 u hu).2 t τ hacq
      omega
    refine ⟨h1, ?_, ?_, ?_, ?_⟩
    · intro u σ hu
      rcases eq_or_ne u t with rfl | hne
      · rw [Function.update_same] at hu
        cases hu
      · rw [Function.update_noteq hne] at hu
        exact h2 u σ hu
    · intro u v σ ρ huv hu hv
      rcases eq_or_ne u t with rfl | hneu
      · rw [Function.update_same] at hu
        cases hu
      · rw [Function.update_noteq hneu] at hu
        rcases eq_or_ne v t with rfl | hnev
        · rw [Function.update_same] at hv
          cases hv
        · rw [Function.update_noteq hnev] at hv
          exact h3 u v σ ρ huv hu hv
    · intro u hu
      constructor
      · omega
      · intro v σ hv
        rcases eq_or_ne v t with rfl | hnev
        · rw [Function.update_same] at hv
          cases hv
        · rw [Function.update_noteq hnev] at hv
          have hvw := h2 v σ hv
          have hd := h3 v t σ τ hnev hv hacq
          omega
    · intro u v hu hv
      rcases eq_or_ne u t with rfl | hneu
      · rcases eq_or_ne v u with rfl | hnev
        · rfl
        · rw [Function.update_noteq hnev] at hv
          exact absurd hv (hnobusy v)
      · rw [Function.update_noteq hneu] at hu
        exact absurd hu (hnobusy u)
  j_rel := by
    intro l ph t hJ hph
    obtain ⟨h1, h2, h3, h4, h5⟩ := hJ
    have hiff := busy_update_iff ph t (.rel (ticket n).r0)
      (by simp [hph, LPhase.busy])
    have hphw : ∀ u τ, Function.update ph t (LPhase.rel (ticket n).r0) u
        = .acq (some τ) → ph u = .acq (some τ) := by
      intro u τ hu
      rcases eq_or_ne u t with rfl | hne
      · rw [Function.update_same] at hu
        cases hu
      · rwa [Function.update_noteq hne] at hu
    refine ⟨h1, ?_, ?_, ?_, ?_⟩
    · intro u σ hu
      exact h2 u σ (hphw u σ hu)
    · intro u v σ ρ huv hu hv
      exact h3 u v σ ρ huv (hphw u σ hu) (hphw v ρ hv)
    · intro u hu
      obtain ⟨ha, hb⟩ := h4 u ((hiff u).mp hu)
      exact ⟨ha, fun v σ hv => hb v σ (hphw v σ hv)⟩
    · intro u v hu hv
      exact h5 u v ((hiff u).mp hu) ((hiff v).mp hv)
  j_rstep := by
    intro l ph t r r' l' hJ hph hR
    exact hR.elim
  j_rexit := by
    intro l ph t r l' hJ hph hR
    obtain ⟨h1, h2, h3, h4, h5⟩ := hJ
    have htb : (ph t).busy := by
      rw [hph]
      trivial
    obtain ⟨hlt, hab⟩ := h4 t htb
    subst hR
    have hphw : ∀ u τ, Function.update ph t LPhase.out u
        = .acq (some τ) → ph u = .acq (some τ) := by
      intro u τ hu
      rcases eq_or_ne u t with rfl | hne
      · rw [Function.update_same] at hu
        cases hu
      · rwa [Function.update_noteq hne] at hu
    refine ⟨by omega, ?_, ?_, ?_, ?_⟩
    · intro u σ hu
      have hw := h2 u σ (hphw u σ hu)
      have := hab u σ (hphw u σ hu)
      omega
    · intro u v σ ρ huv hu hv
      exact h3 u v σ ρ huv (hphw u σ hu) (hphw v ρ hv)
    · intro u hu
      rcases eq_or_ne u t with rfl | hne
      · rw [Function.update_same] at hu
        exact hu.elim
      · rw [Function.update_noteq hne] at hu
        exact absurd (h5 u t hu htb) hne
    · intro u v hu hv
      rcases eq_or_ne u t with rfl | hneu
      · rw [Function.update_same] at hu
        exact hu.elim
      · rw [Function.update_noteq hneu] at hu
        exact absurd (h5 u t hu htb) hneu
  j_mutex := fun l ph t u hJ ht hu => hJ.2.2.2.2 t u ht hu

/-- Two elements sitting next to each other in a list, in this order. -/
def Adj {α : Type} (q : List α) (a b : α) : Prop :=
  ∃ l1 l2, q = l1 ++ a :: b :: l2

theorem adj_nil {α : Type} (a b : α) : ¬ Adj ([] : List α) a b := by
  rintro ⟨l1, l2, h⟩
  cases l1 <;> simp at h

theorem adj_cons {α : Type} (x : α) (q : List α) (a b : α) :
    Adj (x :: q) a b ↔ (a = x ∧ q.head? = some b) ∨ Adj q a b := by
  constructor
  · rintro ⟨l1, l2, h⟩
    cases l1 with
    | nil =>
        simp only [List.nil_append, List.cons.injEq] at h
        exact Or.inl ⟨h.1.symm, by rw [h.2]; rfl⟩
    | cons c l1 =>
        simp only [List.cons_append, List.cons.injEq] at h
        exact Or.inr ⟨l1, l2, h.2⟩
  · rintro (⟨rfl, hh⟩ | ⟨l1, l2, rfl⟩)
    · cases q with
      | nil => cases hh
      | cons c q' =>
          injection hh with hh
          exact ⟨[], q', by subst hh; rfl⟩
    · exact ⟨x :: l1, l2, rfl⟩

theorem adj_mem {α : Type} {q : List α} {a b : α} (h : Adj q a b) :
    a ∈ q ∧ b ∈ q := by
  obtain ⟨l1, l2, rfl⟩ := h
  constructor <;> simp

theorem head?_mem {α : Type} {q : List α} {u : α} (h : q.head? = some u) :
    u ∈ q := by
  cases q with
  | nil => cases h
  | cons x q =>
      injection h with h
      rw [← h]
      exact List.mem_cons_self x q

theorem getLast?_none {α : Type} {q : List α} (h : q.getLast? = none) :
    q = [] := by
  induction q with
  | nil => rfl
  | cons x q ih =>
      cases q with
      | nil => cases h
      | cons y q' =>
          rw [List.getLast?_cons_cons] at h
          exact absurd (ih h) (by simp)

theorem getLast?_mem {α : Type} {q : List α} {u : α} (h : q.getLast? = some u) :
    u ∈ q := by
  induction q with
  | nil => cases h
  | cons x q ih =>
      cases q with
      | nil =>
          injection h with h
          rw [← h]
          exact List.mem_cons_self x []
      | cons y q' =>
          rw [List.getLast?_cons_cons] at h
          exact List.mem_cons_of_mem x (ih h)

theorem adj_concat {α : Type} (q : List α) (t a b : α) :
    Adj (q ++ [t]) a b ↔ Adj q a b ∨ (q.getLast? = some a ∧ b = t) := by
  induction q with
  | nil =>
      simp only [List.nil_append]
      rw [adj_cons]
      constructor
      · rintro (⟨_, hh⟩ | h)
        · cases hh
        · exact absurd h (adj_nil a b)
      · rintro (h | ⟨h, _⟩)
        · exact absurd h (adj_nil a b)
        · cases h
  | cons x q ih =>
      rw [List.cons_append, adj_cons, adj_cons, ih]
      cases q with
      | nil =>
          constructor
          · rintro (⟨rfl, hh⟩ | (h | ⟨hl, rfl⟩))
            · injection hh with hh
              exact Or.inr ⟨rfl, hh.symm⟩
            · exact absurd h (adj_nil a b)
            · cases hl
          · rintro ((⟨rfl, hh⟩ | h) | ⟨hl, rfl⟩)
            · cases hh
            · exact absurd h (adj_nil a b)
            · injection hl with hl
              exact Or.inl ⟨hl.symm, rfl⟩
      | cons y q' =>
          rw [List.getLast?_cons_cons]
          constructor
          · rintro (⟨rfl, hh⟩ | (h | h))
            · injection hh with hh
              exact Or.inl (Or.inl ⟨rfl, by rw [hh]; rfl⟩)
            · exact Or.inl (Or.inr h)
            · exact Or.inr h
          · rintro ((⟨rfl, hh⟩ | h) | h)
            · injection hh with hh
              exact Or.inl ⟨rfl, by rw [hh]; rfl⟩
            · exact Or.inr (Or.inl h)
            · exact Or.inr (Or.inr h)

theorem head?_no_pred {α : Type} {q : List α} (hnd : q.Nodup) {h a : α}
    (hh : q.head? = some h) : ¬ Adj q a h := by
  intro hadj
  cases q with
  | nil => cases hh
  | cons x q =>
      injection hh with hh
      subst hh
      rw [adj_cons] at hadj
      rcases hadj with ⟨rfl, hh2⟩ | hadj
      · exact (List.nodup_cons.mp hnd).1 (head?_mem hh2)
      · exact (List.nodup_cons.mp hnd).1 (adj_mem hadj).2

theorem last_no_succ {α : Type} {q : List α} (hnd : q.Nodup) {z b : α}
    (hz : q.getLast? = some z) : ¬ Adj q z b := by
  induction q with
  | nil => exact adj_nil z b
  | cons x q ih =>
      intro hadj
      rw [adj_cons] at hadj
      cases q with
      | nil =>
          rcases hadj with ⟨_, hh⟩ | hadj
          · cases hh
          · exact absurd hadj (adj_nil z b)
      | cons y q' =>
          rw [List.getLast?_cons_cons] at hz
          rcases hadj with ⟨rfl, _⟩ | hadj
          · exact (List.nodup_cons.mp hnd).1 (getLast?_mem hz)
          · exact ih (List.nodup_cons.mp hnd).2 hz hadj

theorem exists_pred_cons {α : Type} (x : α) {q : List α} {b : α}
    (hmem : b ∈ q) : ∃ a, Adj (x :: q) a b := by
  induction q generalizing x with
  | nil => cases hmem
  | cons y q' ih =>
      rcases eq_or_ne b y with rfl | hby
      · exact ⟨x, (adj_cons x (b :: q') x b).mpr (Or.inl ⟨rfl, rfl⟩)⟩
      · have hbq : b ∈ q' := by
          rcases List.mem_cons.mp hmem with rfl | hh
          · exact absurd rfl hby
          · exact hh
        obtain ⟨a, ha⟩ := ih y hbq
        exact ⟨a, (adj_cons x (y :: q') a b).mpr (Or.inr ha)⟩

theorem exists_pred {α : Type} {q : List α} {b h : α} (hmem : b ∈ q)
    (hh : q.head? = some h) (hne : b ≠ h) : ∃ a, Adj q a b := by
  cases q with
  | nil => cases hmem
  | cons x q =>
      injection hh with hh
      subst hh
      have hbq : b ∈ q := by
        rcases List.mem_cons.mp hmem with rfl | hbq
        · exact absurd rfl hne
        · exact hbq
      exact exists_pred_cons x hbq

theorem succ_unique {α : Type} {q : List α} (hnd : q.Nodup) {a b c : α}
    (h1 : Adj q a b) (h2 : Adj q a c) : b = c := by
  induction q with
  | nil => exact absurd h1 (adj_nil a b)
  | cons x q ih =>
      rw [adj_cons] at h1 h2
      rcases h1 with ⟨rfl, hb⟩ | h1
      · rcases h2 with ⟨_, hc⟩ | h2
        · rw [hb] at hc
          injection hc
        · exact absurd (adj_mem h2).1 (List.nodup_cons.mp hnd).1
      · rcases h2 with ⟨rfl, _⟩ | h2
        · exact absurd (adj_mem h1).1 (List.nodup_cons.mp hnd).1
        · exact ih (List.nodup_cons.mp hnd).2 h1 h2

theorem pred_unique {α : Type} {q : List α} (hnd : q.Nodup) {a b c : α}
    (h1 : Adj q a c) (h2 : Adj q b c) : a = b := by
  induction q with
  | nil => exact absurd h1 (adj_nil a c)
  | cons x q ih =>
      rw [adj_cons] at h1 h2
      rcases h1 with ⟨rfl, hc⟩ | h1
      · rcases h2 with ⟨rfl, _⟩ | h2
        · rfl
        · exact absurd h2 (head?_no_pred (List.nodup_cons.mp hnd).2 hc)
      · rcases h2 with ⟨rfl, hc⟩ | h2
        · exact absurd h1 (head?_no_pred (List.nodup_cons.mp hnd).2 hc)
        · exact ih (List.nodup_cons.mp hnd).2 h1 h2

/-- Shared state of `thread::sync::QueueSpinLock`: the `tail_` pointer and,
for each thread, the `next_` link and `is_owner_` flag of its current `Guard`
node (at most one guard per thread is live at a time, so nodes are indexed by
thread). -/
structure MCSState (n : Nat) where
  tail : Option (Fin n)
  nxt : Fin n → Option (Fin n)
  own : Fin n → Bool

/-- Program counter of the acquire path of `QueueSpinLock::Acquire`: about to
exchange `tail_`, about to link the previous tail `p` to the own node, about
to set the own `is_owner_` flag (empty-queue case of `Enqueue`), or spinning
on the own `is_owner_` flag. -/
inductive MA (n : Nat) where
  | toXchg
  | linking (p : Fin n)
  | selfOwn
  | waitOwn
deriving DecidableEq

/-- Program counter of the release path of `QueueSpinLock::Release`: about to
run the `tail_` compare-and-swap, or spinning in `SpinUntilNextWaiter` before
handing ownership to the successor. -/
inductive MR where
  | relCAS
  | relWait
deriving DecidableEq

/-- The MCS queue-spinlock protocol.  Each atomic step mirrors one atomic
operation of the source.  On the releasing steps the departing thread's node
fields are reset to `none`/`false`: this models the destruction of its
`Guard` and the construction of the fresh `Guard` used for its next
acquisition (`next_{nullptr}`, `is_owner_{false}`); between the two no thread
reads those fields. -/
def mcs (n : Nat) : LockProto n where
  L := MCSState n
  A := MA n
  R := MR
  linit := ⟨none, fun _ => none, fun _ => false⟩
  a0 := .toXchg
  r0 := .relCAS
  AStep := fun t a l a' l' =>
    (a = .toXchg ∧ l.tail = none ∧ a' = .selfOwn
      ∧ l' = { l with tail := some t })
    ∨ (∃ p, a = .toXchg ∧ l.tail = some p ∧ a' = .linking p
      ∧ l' = { l with tail := some t })
    ∨ (∃ p, a = .linking p ∧ a' = .waitOwn
      ∧ l' = { l with nxt := Function.update l.nxt p (some t) })
    ∨ (a = .selfOwn ∧ a' = .waitOwn
      ∧ l' = { l with own := Function.update l.own t true })
    ∨ (a = .waitOwn ∧ l.own t = false ∧ a' = .waitOwn ∧ l' = l)
  AEnter := fun t a l l' => a = .waitOwn ∧ l.own t = true ∧ l' = l
  RStep := fun t r l r' l' =>
    (r = .relCAS ∧ l.tail ≠ some t ∧ r' = .relWait ∧ l' = l)
    ∨ (r = .relWait ∧ l.nxt t = none ∧ r' = .relWait ∧ l' = l)
  RExit := fun t r l l' =>
    (r = .relCAS ∧ l.tail = some t
      ∧ l' = { tail := none, nxt := l.nxt,
               own := Function.update l.own t false })
    ∨ (∃ u, r = .relWait ∧ l.nxt t = some u
      ∧ l' = { tail := l.tail,
               nxt := Function.update l.nxt t none,
               own := Function.update (Function.update l.own u true) t false })

/-- A thread whose guard node is in the wait queue: it has completed the
`tail_` exchange and not yet completed its release. -/
def MLive {n : Nat} : LPhase (MA n) MR → Prop
  | .out => False
  | .acq .toXchg => False
  | .acq _ => True
  | .hold => True
  | .rel _ => True

/-- Relation between two adjacent queue nodes `a` and `b` (`b` enqueued right
after `a`): either `b` has claimed the tail but not yet linked itself into
`a`'s `next_` (phase 1 of `Enqueue` done, phase 2 pending), or the link is
established and `b` spins on its own flag. -/
def chainCond {n : Nat} (l : MCSState n) (ph : Fin n → LPhase (MA n) MR)
    (a b : Fin n) : Prop :=
  (ph b = .acq (.linking a) ∧ l.nxt a = none)
  ∨ (l.nxt a = some b ∧ ph b = .acq .waitOwn)

/-- Phases possible for the head of the wait queue. -/
def headOk {n : Nat} : LPhase (MA n) MR → Prop
  | .acq .selfOwn => True
  | .acq .waitOwn => True
  | .hold => True
  | .rel _ => True
  | _ => False

/-- The queue invariant of the MCS lock, relative to the list `q` of live
nodes in enqueue order. -/
def MQInv {n : Nat} (l : MCSState n) (ph : Fin n → LPhase (MA n) MR)
    (q : List (Fin n)) : Prop :=
  q.Nodup
  ∧ (∀ u, u ∈ q ↔ MLive (ph u))
  ∧ l.tail = q.getLast?
  ∧ (∀ a b, Adj q a b → chainCond l ph a b)
  ∧ (∀ z, q.getLast? = some z → l.nxt z = none)
  ∧ (∀ u, ¬ MLive (ph u) → l.nxt u = none ∧ l.own u = false)
  ∧ (∀ u, u ∈ q.tail → l.own u = false)
  ∧ (∀ u, l.own u = true → q.head? = some u)
  ∧ (∀ u, q.head? = some u → headOk (ph u))
  ∧ (∀ u, (ph u).busy → l.own u = true)
  ∧ (∀ u, ph u = .acq .selfOwn → q.head? = some u)

/-- Invariant of the MCS lock: some list of live nodes satisfies the queue
invariant. -/
def mcsJ {n : Nat} (l : MCSState n) (ph : Fin n → LPhase (MA n) MR) : Prop :=
  ∃ q, MQInv l ph q

theorem adj_singleton {α : Type} (x a b : α) : ¬ Adj [x] a b := by
  intro h
  rw [adj_cons] at h
  rcases h with ⟨_, hh⟩ | h
  · cases hh
  · exact absurd h (adj_nil a b)

theorem mcs_busy_head {n : Nat} {l : MCSState n}
    {ph : Fin n → LPhase (MA n) MR} {q : List (Fin n)} {t : Fin n}
    (hq : MQInv l ph q) (hb : (ph t).busy) : q.head? = some t :=
  hq.2.2.2.2.2.2.2.1 t (hq.2.2.2.2.2.2.2.2.2.1 t hb)

theorem mcs_j_start {n : Nat} (l : MCSState n)
    (ph : Fin n → LPhase (MA n) MR) (t : Fin n) (hJ : mcsJ l ph)
    (hout : ph t = .out) :
    mcsJ l (Function.update ph t (.acq .toXchg)) := by
  obtain ⟨q, hnd, hmem, htail, hchain, hlast, hdead, hnonhead, hownhead,
    hheadok, hbusyown, hself⟩ := hJ
  have htnotin : t ∉ q := fun ht => by
    have hlive := (hmem t).mp ht
    rw [hout] at hlive
    exact hlive
  refine ⟨q, hnd, ?_, htail, ?_, hlast, ?_, hnonhead, hownhead, ?_, ?_, ?_⟩
  · intro u
    rcases eq_or_ne u t with rfl | hne
    · rw [Function.update_same]
      exact ⟨fun hu => absurd hu htnotin, fun hl => hl.elim⟩
    · rw [Function.update_noteq hne]
      exact hmem u
  · intro a b hadj
    have hbne : b ≠ t := fun he => htnotin (he ▸ (adj_mem hadj).2)
    have hcc := hchain a b hadj
    unfold chainCond at hcc ⊢
    rw [Function.update_noteq hbne]
    exact hcc
  · intro u hu
    rcases eq_or_ne u t with rfl | hne
    · refine hdead u ?_
      rw [hout]
      exact fun hl => hl
    · rw [Function.update_noteq hne] at hu
      exact hdead u hu
  · intro u hh
    have hne : u ≠ t := fun he => htnotin (he ▸ head?_mem hh)
    rw [Function.update_noteq hne]
    exact hheadok u hh
  · intro u hu
    rcases eq_or_ne u t with rfl | hne
    · rw [Function.update_same] at hu
      exact hu.elim
    · rw [Function.update_noteq hne] at hu
      exact hbusyown u hu
  · intro u hu
    rcases eq_or_ne u t with rfl | hne
    · rw [Function.update_same] at hu
      simp at hu
    · rw [Function.update_noteq hne] at hu
      exact hself u hu

theorem mcs_j_enter {n : Nat} (l : MCSState n)
    (ph : Fin n → LPhase (MA n) MR) (t : Fin n) (hJ : mcsJ l ph)
    (hacq : ph t = .acq .waitOwn) (hown : l.own t = true) :
    mcsJ l (Function.update ph t .hold) := by
  obtain ⟨q, hnd, hmem, htail, hchain, hlast, hdead, hnonhead, hownhead,
    hheadok, hbusyown, hself⟩ := hJ
  have hhead : q.head? = some t := hownhead t hown
  refine ⟨q, hnd, ?_, htail, ?_, hlast, ?_, hnonhead, hownhead, ?_, ?_, ?_⟩
  · intro u
    rcases eq_or_ne u t with rfl | hne
    · rw [Function.update_same]
      exact ⟨fun _ => trivial, fun _ => head?_mem hhead⟩
    · rw [Function.update_noteq hne]
      exact hmem u
  · intro a b hadj
    have hbne : b ≠ t := fun he => head?_no_pred hnd hhead (he ▸ hadj)
    have hcc := hchain a b hadj
    unfold chainCond at hcc ⊢
    rw [Function.update_noteq hbne]
    exact hcc
  · intro u hu
    rcases eq_or_ne u t with rfl | hne
    · rw [Function.update_same] at hu
      exact absurd trivial hu
    · rw [Function.update_noteq hne] at hu
      exact hdead u hu
  · intro u hh
    rcases eq_or_ne u t with rfl | hne
    · rw [Function.update_same]
      trivial
    · rw [Function.update_noteq hne]
      exact hheadok u hh
  · intro u hu
    rcases eq_or_ne u t with rfl | hne
    · exact hown
    · rw [Function.update_noteq hne] at hu
      exact hbusyown u hu
  · intro u hu
    rcases eq_or_ne u t with rfl | hne
    · rw [Function.update_same] at hu
      simp at hu
    · rw [Function.update_noteq hne] at hu
      have := hself u hu
      rw [hhead] at this
      injection this with this
      exact absurd this.symm hne

theorem mcs_j_relstart {n : Nat} (l : MCSState n)
    (ph : Fin n → LPhase (MA n) MR) (t : Fin n) (hJ : mcsJ l ph)
    (hb : (ph t).busy) (r : MR) :
    mcsJ l (Function.update ph t (.rel r)) := by
  obtain ⟨q, hq⟩ := hJ
  have hhead : q.head? = some t := mcs_busy_head hq hb
  obtain ⟨hnd, hmem, htail, hchain, hlast, hdead, hnonhead, hownhead,
    hheadok, hbusyown, hself⟩ := hq
  have howt : l.own t = true := hbusyown t hb
  refine ⟨q, hnd, ?_, htail, ?_, hlast, ?_, hnonhead, hownhead, ?_, ?_, ?_⟩
  · intro u
    rcases eq_or_ne u t with rfl | hne
    · rw [Function.update_same]
      exact ⟨fun _ => trivial, fun _ => head?_mem hhead⟩
    · rw [Function.update_noteq hne]
      exact hmem u
  · intro a b hadj
    have hbne : b ≠ t := fun he => head?_no_pred hnd hhead (he ▸ hadj)
    have hcc := hchain a b hadj
    unfold chainCond at hcc ⊢
    rw [Function.update_noteq hbne]
    exact hcc
  · intro u hu
    rcases eq_or_ne u t with rfl | hne
    · rw [Function.update_same] at hu
      exact absurd trivial hu
    · rw [Function.update_noteq hne] at hu
      exact hdead u hu
  · intro u hh
    rcases eq_or_ne u t with rfl | hne
    · rw [Function.update_same]
      trivial
    · rw [Function.update_noteq hne]
      exact hheadok u hh
  · intro u hu
    rcases eq_or_ne u t with rfl | hne
    · exact howt
    · rw [Function.update_noteq hne] at hu
      exact hbusyown u hu
  · intro u hu
    rcases eq_or_ne u t with rfl | hne
    · rw [Function.update_same] at hu
      simp at hu
    · rw [Function.update_noteq hne] at hu
      have := hself u hu
      rw [hhead] at this
      injection this with this
      exact absurd this.symm hne

theorem mlive_of_busy {n : Nat} (x : LPhase (MA n) MR) (h : x.busy) :
    MLive x := by
  cases x with
  | out => exact h.elim
  | acq a => exact h.elim
  | hold => trivial
  | rel r => trivial

theorem mcs_j_astep {n : Nat} (l : MCSState n)
    (ph : Fin n → LPhase (MA n) MR) (t : Fin n) (a a' : MA n)
    (l' : MCSState n) (hJ : mcsJ l ph) (hacq : ph t = .acq a)
    (hA : (mcs n).AStep t a l a' l') :
    mcsJ l' (Function.update ph t (.acq a')) := by
  obtain ⟨q, hnd, hmem, htail, hchain, hlast, hdead, hnonhead, hownhead,
    hheadok, hbusyown, hself⟩ := hJ
  simp only [mcs] at hA
  rcases hA with ⟨ha, htail0, ha', hl⟩ | ⟨p, ha, htailp, ha', hl⟩
    | ⟨p, ha, ha', hl⟩ | ⟨ha, ha', hl⟩ | ⟨ha, hof, ha', hl⟩
  · -- tail exchange finding an empty queue
    subst ha ha' hl
    rw [htail] at htail0
    have hqnil : q = [] := getLast?_none htail0
    subst hqnil
    have hnolive : ∀ u, ¬ MLive (ph u) := fun u hu =>
      absurd ((hmem u).mpr hu) (List.not_mem_nil u)
    have htdead := hdead t (hnolive t)
    refine ⟨[t], List.nodup_singleton t, ?_, ?_, ?_, ?_, ?_, ?_, ?_, ?_,
      ?_, ?_⟩
    · intro u
      rcases eq_or_ne u t with rfl | hne
      · rw [Function.update_same]
        exact ⟨fun _ => trivial, fun _ => List.mem_singleton_self u⟩
      · rw [Function.update_noteq hne]
        constructor
        · intro hu
          exact absurd (List.mem_singleton.mp hu) hne
        · intro hu
          exact absurd hu (hnolive u)
    · rfl
    · intro x y hadj
      exact absurd hadj (adj_singleton t x y)
    · intro z hz
      injection hz with hz
      subst hz
      exact htdead.1
    · intro u hu
      rcases eq_or_ne u t with rfl | hne
      · rw [Function.update_same] at hu
        exact absurd trivial hu
      · rw [Function.update_noteq hne] at hu
        exact hdead u hu
    · intro u hu
      cases hu
    · intro u hu
      have := hownhead u hu
      cases this
    · intro u hh
      injection hh with hh
      subst hh
      rw [Function.update_same]
      trivial
    · intro u hu
      rcases eq_or_ne u t with rfl | hne
      · rw [Function.update_same] at hu
        exact hu.elim
      · rw [Function.update_noteq hne] at hu
        have := hownhead u (hbusyown u hu)
        cases this
    · intro u hu
      rcases eq_or_ne u t with rfl | hne
      · rfl
      · rw [Function.update_noteq hne] at hu
        have := hself u hu
        cases this
  · -- tail exchange finding a previous tail p
    subst ha ha' hl
    rw [htail] at htailp
    cases q with
    | nil => cases htailp
    | cons c q0 =>
        have htnotin : t ∉ c :: q0 := fun ht => by
          have hlive := (hmem t).mp ht
          rw [hacq] at hlive
          exact hlive
        have htdead := hdead t (by rw [hacq]; exact fun h => h)
        refine ⟨(c :: q0) ++ [t], ?_, ?_, ?_, ?_, ?_, ?_, ?_, ?_, ?_, ?_, ?_⟩
        · rw [List.nodup_append]
          exact ⟨hnd, List.nodup_singleton t, fun x hx hxt =>
            htnotin ((List.mem_singleton.mp hxt) ▸ hx)⟩
        · intro u
          rcases eq_or_ne u t with rfl | hne
          · rw [Function.update_same]
            constructor
            · intro _
              trivial
            · intro _
              exact List.mem_append_right _ (List.mem_singleton_self u)
          · rw [Function.update_noteq hne]
            constructor
            · intro hu
              rcases List.mem_append.mp hu with hu | hu
              · exact (hmem u).mp hu
              · exact absurd (List.mem_singleton.mp hu) hne
            · intro hu
              exact List.mem_append_left _ ((hmem u).mpr hu)
        · show some t = ((c :: q0) ++ [t]).getLast?
          rw [List.getLast?_concat]
        · intro x y hadj
          rw [adj_concat] at hadj
          rcases hadj with hadj | ⟨hxlast, rfl⟩
          · have hyne : y ≠ t := fun he => htnotin (he ▸ (adj_mem hadj).2)
            have hcc := hchain x y hadj
            unfold chainCond at hcc ⊢
            rw [Function.update_noteq hyne]
            exact hcc
          · rw [htailp] at hxlast
            injection hxlast with hxlast
            subst hxlast
            left
            constructor
            · rw [Function.update_same]
            · exact hlast p htailp
        · intro z hz
          rw [List.getLast?_concat] at hz
          injection hz with hz
          subst hz
          exact htdead.1
        · intro u hu
          rcases eq_or_ne u t with rfl | hne
          · rw [Function.update_same] at hu
            exact absurd trivial hu
          · rw [Function.update_noteq hne] at hu
            exact hdead u hu
        · intro u hu
          rw [List.cons_append] at hu
          rcases List.mem_append.mp hu with hu | hu
          · exact hnonhead u hu
          · rw [List.mem_singleton.mp hu]
            exact htdead.2
        · intro u hu
          exact hownhead u hu
        · intro u hh
          rw [List.cons_append] at hh
          injection hh with hh
          subst hh
          have hne : c ≠ t := fun he => htnotin (he ▸ List.mem_cons_self c q0)
          rw [Function.update_noteq hne]
          exact hheadok c rfl
        · intro u hu
          rcases eq_or_ne u t with rfl | hne
          · rw [Function.update_same] at hu
            exact hu.elim
          · rw [Function.update_noteq hne] at hu
            exact hbusyown u hu
        · intro u hu
          rcases eq_or_ne u t with rfl | hne
          · rw [Function.update_same] at hu
            simp at hu
          · rw [Function.update_noteq hne] at hu
            exact hself u hu
  · -- linking the previous tail p to the own node
    subst ha ha' hl
    have htin : t ∈ q := (hmem t).mpr (by rw [hacq]; trivial)
    obtain ⟨h0, hh0⟩ : ∃ h0, q.head? = some h0 := by
      cases q with
      | nil => cases htin
      | cons c q0 => exact ⟨c, rfl⟩
    have htneh : t ≠ h0 := by
      intro he
      have hok := hheadok h0 hh0
      rw [← he, hacq] at hok
      exact hok
    obtain ⟨x, hadjxt⟩ := exists_pred htin hh0 htneh
    have hcc := hchain x t hadjxt
    have hxp : x = p ∧ l.nxt p = none := by
      rcases hcc with ⟨hph, hn⟩ | ⟨hn, hph⟩
      · rw [hacq] at hph
        injection hph with hph
        injection hph with hph
        subst hph
        exact ⟨rfl, hn⟩
      · rw [hacq] at hph
        simp at hph
    obtain ⟨rfl, hnxtp⟩ := hxp
    have hpin : x ∈ q := (adj_mem hadjxt).1
    have hplive : MLive (ph x) := (hmem x).mp hpin
    refine ⟨q, hnd, ?_, htail, ?_, ?_, ?_, hnonhead, hownhead, ?_, ?_, ?_⟩
    · intro u
      rcases eq_or_ne u t with rfl | hne
      · rw [Function.update_same]
        exact ⟨fun _ => trivial, fun _ => htin⟩
      · rw [Function.update_noteq hne]
        exact hmem u
    · intro x0 y hadj
      rcases eq_or_ne y t with rfl | hyne
      · have hx0 : x0 = x := pred_unique hnd hadj hadjxt
        subst hx0
        right
        constructor
        · show Function.update l.nxt x0 (some y) x0 = some y
          rw [Function.update_same]
        · rw [Function.update_same]
      · rcases eq_or_ne x0 x with rfl | hxne
        · exact absurd (succ_unique hnd hadjxt hadj).symm hyne
        · have hcc0 := hchain x0 y hadj
          unfold chainCond at hcc0 ⊢
          show (Function.update ph t (LPhase.acq MA.waitOwn) y
              = LPhase.acq (MA.linking x0)
              ∧ Function.update l.nxt x (some t) x0 = none)
            ∨ (Function.update l.nxt x (some t) x0 = some y
              ∧ Function.update ph t (LPhase.acq MA.waitOwn) y
                = LPhase.acq MA.waitOwn)
          rw [Function.update_noteq hyne, Function.update_noteq hxne]
          exact hcc0
    · intro z hz
      have hzp : z ≠ x := by
        intro he
        subst he
        exact last_no_succ hnd hz hadjxt
      show Function.update l.nxt x (some t) z = none
      rw [Function.update_noteq hzp]
      exact hlast z hz
    · intro u hu
      rcases eq_or_ne u t with rfl | hne
      · rw [Function.update_same] at hu
        exact absurd trivial hu
      · rw [Function.update_noteq hne] at hu
        have hup : u ≠ x := by
          intro he
          subst he
          exact hu hplive
        have hd := hdead u hu
        refine ⟨?_, hd.2⟩
        show Function.update l.nxt x (some t) u = none
        rw [Function.update_noteq hup]
        exact hd.1
    · intro u hh
      rw [hh0] at hh
      injection hh with hh
      have hne : u ≠ t := fun he => htneh ((hh.trans he).symm)
      rw [Function.update_noteq hne]
      exact hheadok u (by rw [hh0, hh])
    · intro u hu
      rcases eq_or_ne u t with rfl | hne
      · rw [Function.update_same] at hu
        exact hu.elim
      · rw [Function.update_noteq hne] at hu
        exact hbusyown u hu
    · intro u hu
      rcases eq_or_ne u t with rfl | hne
      · rw [Function.update_same] at hu
        simp at hu
      · rw [Function.update_noteq hne] at hu
        exact hself u hu
  · -- setting the own flag after finding an empty queue
    subst ha ha' hl
    have hhead := hself t hacq
    obtain ⟨q0, rfl⟩ : ∃ q0, q = t :: q0 := by
      cases q with
      | nil => cases hhead
      | cons c q0 =>
          injection hhead with hh
          exact ⟨q0, by rw [hh]⟩
    have htnot0 : t ∉ q0 := (List.nodup_cons.mp hnd).1
    refine ⟨t :: q0, hnd, ?_, htail, ?_, hlast, ?_, ?_, ?_, ?_, ?_, ?_⟩
    · intro u
      rcases eq_or_ne u t with rfl | hne
      · rw [Function.update_same]
        exact ⟨fun _ => trivial, fun _ => List.mem_cons_self u q0⟩
      · rw [Function.update_noteq hne]
        exact hmem u
    · intro x y hadj
      have hyne : y ≠ t := fun he => head?_no_pred hnd rfl (he ▸ hadj)
      have hcc := hchain x y hadj
      unfold chainCond at hcc ⊢
      rw [Function.update_noteq hyne]
      exact hcc
    · intro u hu
      rcases eq_or_ne u t with rfl | hne
      · rw [Function.update_same] at hu
        exact absurd trivial hu
      · rw [Function.update_noteq hne] at hu
        have hd := hdead u hu
        refine ⟨hd.1, ?_⟩
        show Function.update l.own t true u = false
        rw [Function.update_noteq hne]
        exact hd.2
    · intro u hu
      have hne : u ≠ t := fun he => htnot0 (he ▸ hu)
      show Function.update l.own t true u = false
      rw [Function.update_noteq hne]
      exact hnonhead u hu
    · intro u hu
      rcases eq_or_ne u t with rfl | hne
      · rfl
      · have hu' : l.own u = true := by
          have : Function.update l.own t true u = l.own u :=
            Function.update_noteq hne _ _
          rw [← this]
          exact hu
        exact hownhead u hu'
    · intro u hh
      injection hh with hh
      subst hh
      rw [Function.update_same]
      trivial
    · intro u hu
      rcases eq_or_ne u t with rfl | hne
      · rw [Function.update_same] at hu
        exact hu.elim
      · rw [Function.update_noteq hne] at hu
        show Function.update l.own t true u = true
        rw [Function.update_noteq hne]
        exact hbusyown u hu
    · intro u hu
      rcases eq_or_ne u t with rfl | hne
      · rw [Function.update_same] at hu
        simp at hu
      · rw [Function.update_noteq hne] at hu
        exact hself u hu
  · -- spinning on the own flag: nothing changes
    subst ha ha' hl
    rw [← hacq, Function.update_eq_self]
    exact ⟨q, hnd, hmem, htail, hchain, hlast, hdead, hnonhead, hownhead,
      hheadok, hbusyown, hself⟩

theorem mcs_j_rexit {n : Nat} (l : MCSState n)
    (ph : Fin n → LPhase (MA n) MR) (t : Fin n) (r : MR) (l' : MCSState n)
    (hJ : mcsJ l ph) (hrel : ph t = .rel r) (hR : (mcs n).RExit t r l l') :
    mcsJ l' (Function.update ph t .out) := by
  obtain ⟨q, hq⟩ := hJ
  have hhead : q.head? = some t := mcs_busy_head hq (by rw [hrel]; trivial)
  obtain ⟨hnd, hmem, htail, hchain, hlast, hdead, hnonhead, hownhead,
    hheadok, hbusyown, hself⟩ := hq
  obtain ⟨q0, rfl⟩ : ∃ q0, q = t :: q0 := by
    cases q with
    | nil => cases hhead
    | cons c q0 =>
        injection hhead with hh
        exact ⟨q0, by rw [hh]⟩
  have htnot0 : t ∉ q0 := (List.nodup_cons.mp hnd).1
  simp only [mcs] at hR
  rcases hR with ⟨hr, htailt, hl⟩ | ⟨s, hr, hnxtt, hl⟩
  · -- successful tail compare-and-swap: queue becomes empty
    subst hl
    rw [htail] at htailt
    have hq0 : q0 = [] := by
      cases q0 with
      | nil => rfl
      | cons y q1 =>
          rw [List.getLast?_cons_cons] at htailt
          exact absurd (getLast?_mem htailt) htnot0
    subst hq0
    refine ⟨[], List.nodup_nil, ?_, rfl, ?_, ?_, ?_, ?_, ?_, ?_, ?_, ?_⟩
    · intro u
      constructor
      · intro hu
        cases hu
      · intro hu
        rcases eq_or_ne u t with rfl | hne
        · rw [Function.update_same] at hu
          exact hu.elim
        · rw [Function.update_noteq hne] at hu
          exact absurd (List.mem_singleton.mp ((hmem u).mpr hu)) hne
    · intro x y hadj
      exact absurd hadj (adj_nil x y)
    · intro z hz
      cases hz
    · intro u hu
      rcases eq_or_ne u t with rfl | hne
      · refine ⟨hlast u htailt, ?_⟩
        show Function.update l.own u false u = false
        rw [Function.update_same]
      · rw [Function.update_noteq hne] at hu
        have hd := hdead u hu
        refine ⟨hd.1, ?_⟩
        show Function.update l.own t false u = false
        rw [Function.update_noteq hne]
        exact hd.2
    · intro u hu
      cases hu
    · intro u hu
      rcases eq_or_ne u t with rfl | hne
      · replace hu : Function.update l.own u false u = true := hu
        rw [Function.update_same] at hu
        cases hu
      · replace hu : Function.update l.own t false u = true := hu
        rw [Function.update_noteq hne] at hu
        have := hownhead u hu
        injection this with this
        exact absurd this.symm hne
    · intro u hh
      cases hh
    · intro u hu
      rcases eq_or_ne u t with rfl | hne
      · rw [Function.update_same] at hu
        exact hu.elim
      · rw [Function.update_noteq hne] at hu
        have := hownhead u (hbusyown u hu)
        injection this with this
        exact absurd this.symm hne
    · intro u hu
      rcases eq_or_ne u t with rfl | hne
      · rw [Function.update_same] at hu
        simp at hu
      · rw [Function.update_noteq hne] at hu
        have := hself u hu
        injection this with this
        exact absurd this.symm hne
  · -- failed compare-and-swap: hand ownership to the linked successor
    subst hl
    cases q0 with
    | nil =>
        rw [hlast t rfl] at hnxtt
        cases hnxtt
    | cons b q1 =>
        have hadjtb : Adj (t :: b :: q1) t b :=
          (adj_cons t (b :: q1) t b).mpr (Or.inl ⟨rfl, rfl⟩)
        have hcc := hchain t b hadjtb
        have hsb : s = b ∧ ph b = .acq .waitOwn := by
          rcases hcc with ⟨hph, hn0⟩ | ⟨hn, hph⟩
          · rw [hnxtt] at hn0
            cases hn0
          · rw [hnxtt] at hn
            injection hn with hn
            exact ⟨hn, hph⟩
        obtain ⟨rfl, hphb⟩ := hsb
        have hsnt : s ≠ t := fun he => htnot0 (he ▸ List.mem_cons_self s q1)
        have hslive : MLive (ph s) := by
          rw [hphb]
          trivial
        refine ⟨s :: q1, (List.nodup_cons.mp hnd).2, ?_, ?_, ?_, ?_, ?_, ?_,
          ?_, ?_, ?_, ?_⟩
        · intro u
          rcases eq_or_ne u t with rfl | hne
          · rw [Function.update_same]
            exact ⟨fun hu => absurd hu htnot0, fun hu => hu.elim⟩
          · rw [Function.update_noteq hne]
            constructor
            · intro hu
              exact (hmem u).mp (List.mem_cons_of_mem t hu)
            · intro hu
              rcases List.mem_cons.mp ((hmem u).mpr hu) with rfl | hu2
              · exact absurd rfl hne
              · exact hu2
        · show l.tail = (s :: q1).getLast?
          rw [htail]
          exact List.getLast?_cons_cons
        · intro x y hadj
          have hadjq : Adj (t :: s :: q1) x y :=
            (adj_cons t (s :: q1) x y).mpr (Or.inr hadj)
          have hxne : x ≠ t := fun he => htnot0 (he ▸ (adj_mem hadj).1)
          have hyne : y ≠ t := fun he => htnot0 (he ▸ (adj_mem hadj).2)
          have hcc0 := hchain x y hadjq
          unfold chainCond at hcc0 ⊢
          show (Function.update ph t LPhase.out y = LPhase.acq (MA.linking x)
              ∧ Function.update l.nxt t none x = none)
            ∨ (Function.update l.nxt t none x = some y
              ∧ Function.update ph t LPhase.out y = LPhase.acq MA.waitOwn)
          rw [Function.update_noteq hyne, Function.update_noteq hxne]
          exact hcc0
        · intro z hz
          have hzt : z ≠ t := fun he => htnot0 (he ▸ getLast?_mem hz)
          show Function.update l.nxt t none z = none
          rw [Function.update_noteq hzt]
          refine hlast z ?_
          rw [List.getLast?_cons_cons]
          exact hz
        · intro u hu
          rcases eq_or_ne u t with rfl | hne
          · constructor
            · show Function.update l.nxt u none u = none
              rw [Function.update_same]
            · show Function.update (Function.update l.own s true) u false u
                = false
              rw [Function.update_same]
          · rw [Function.update_noteq hne] at hu
            have hus : u ≠ s := fun he => hu (he ▸ hslive)
            have hd := hdead u hu
            constructor
            · show Function.update l.nxt t none u = none
              rw [Function.update_noteq hne]
              exact hd.1
            · show Function.update (Function.update l.own s true) t false u
                = false
              rw [Function.update_noteq hne, Function.update_noteq hus]
              exact hd.2
        · intro u hu
          have humem : u ∈ s :: q1 := List.mem_cons_of_mem s hu
          have hne : u ≠ t := fun he => htnot0 (he ▸ humem)
          have hus : u ≠ s := fun he =>
            (List.nodup_cons.mp (List.nodup_cons.mp hnd).2).1 (he ▸ hu)
          show Function.update (Function.update l.own s true) t false u = false
          rw [Function.update_noteq hne, Function.update_noteq hus]
          exact hnonhead u humem
        · intro u hu
          rcases eq_or_ne u t with rfl | hne
          · replace hu : Function.update (Function.update l.own s true) u
                false u = true := hu
            rw [Function.update_same] at hu
            cases hu
          · replace hu : Function.update (Function.update l.own s true) t
                false u = true := hu
            rw [Function.update_noteq hne] at hu
            rcases eq_or_ne u s with rfl | hus
            · rfl
            · rw [Function.update_noteq hus] at hu
              have := hownhead u hu
              injection this with this
              exact absurd this.symm hne
        · intro u hh
          injection hh with hh
          subst hh
          rw [Function.update_noteq hsnt, hphb]
          trivial
        · intro u hu
          rcases eq_or_ne u t with rfl | hne
          · rw [Function.update_same] at hu
            exact hu.elim
          · rw [Function.update_noteq hne] at hu
            have := hownhead u (hbusyown u hu)
            injection this with this
            exact absurd this.symm hne
        · intro u hu
          rcases eq_or_ne u t with rfl | hne
          · rw [Function.update_same] at hu
            simp at hu
          · rw [Function.update_noteq hne] at hu
            have := hself u hu
            injection this with this
            exact absurd this.symm hne

theorem mcs_j_mutex {n : Nat} (l : MCSState n)
    (ph : Fin n → LPhase (MA n) MR) (t u : Fin n) (hJ : mcsJ l ph)
    (ht : (ph t).busy) (hu : (ph u).busy) : t = u := by
  obtain ⟨q, hq⟩ := hJ
  have h1 := mcs_busy_head hq ht
  have h2 := mcs_busy_head hq hu
  rw [h1] at h2
  injection h2

def mcsGood (n : Nat) : GoodLock (mcs n) where
  J := mcsJ
  j_init := by
    refine ⟨[], List.nodup_nil, ?_, rfl, ?_, ?_, ?_, ?_, ?_, ?_, ?_, ?_⟩
    · intro u
      exact ⟨fun hu => absurd hu (List.not_mem_nil u), fun hu => hu.elim⟩
    · intro x y hadj
      exact absurd hadj (adj_nil x y)
    · intro z hz
      cases hz
    · intro u _
      exact ⟨rfl, rfl⟩
    · intro u hu
      cases hu
    · intro u hu
      cases hu
    · intro u hh
      cases hh
    · intro u hu
      exact hu.elim
    · intro u hu
      cases hu
  j_start := fun l ph t hJ hout => mcs_j_start l ph t hJ hout
  j_astep := fun l ph t a a' l' hJ hacq hA =>
    mcs_j_astep l ph t a a' l' hJ hacq hA
  j_enter := by
    intro l ph t a l' hJ hacq hA
    simp only [mcs] at hA
    obtain ⟨ha, hown, hl⟩ := hA
    subst ha hl
    exact mcs_j_enter _ ph t hJ hacq hown
  j_rel := fun l ph t hJ hph =>
    mcs_j_relstart l ph t hJ (by rw [hph]; trivial) _
  j_rstep := by
    intro l ph t r r' l' hJ hph hR
    simp only [mcs] at hR
    rcases hR with ⟨hr, hnt, hr', hl⟩ | ⟨hr, hn, hr', hl⟩ <;> subst hl <;>
      subst hr' <;> exact mcs_j_relstart _ ph t hJ (by rw [hph]; trivial) _
  j_rexit := fun l ph t r l' hJ hph hR => mcs_j_rexit l ph t r l' hJ hph hR
  j_mutex := fun l ph t u hJ ht hu => mcs_j_mutex l ph t u hJ ht hu

theorem sys_ext {n : Nat} {P : LockProto n} {s s' : Sys n P}
    (hl : s.lock = s'.lock) (hc : s.ctr = s'.ctr)
    (ht : ∀ u, s.th u = s'.th u) : s = s' := by
  obtain ⟨l, c, th⟩ := s
  obtain ⟨l', c', th'⟩ := s'
  dsimp only at hl hc ht
  subst hl
  subst hc
  have hth : th = th' := funext ht
  rw [hth]

theorem reach_of_eq {n : Nat} {P : LockProto n} {M : Nat} {s s' : Sys n P}
    (h : Reach P M s) (hl : s.lock = s'.lock) (hc : s.ctr = s'.ctr)
    (ht : ∀ u, s.th u = s'.th u) : Reach P M s' := by
  rw [← sys_ext hl hc ht]
  exact h

theorem mcs_state_ext {n : Nat} {a b : MCSState n} (h1 : a.tail = b.tail)
    (h2 : ∀ u, a.nxt u = b.nxt u) (h3 : ∀ u, a.own u = b.own u) : a = b := by
  obtain ⟨t1, n1, o1⟩ := a
  obtain ⟨t2, n2, o2⟩ := b
  dsimp only at h1 h2 h3
  subst h1
  have hn : n1 = n2 := funext h2
  have ho : o1 = o2 := funext h3
  rw [hn, ho]

/-- A complete one-thread, one-increment execution of the TTAS spinlock
experiment: start, CAS from `false` to `true`, read, write, store `false`. -/
theorem ttas_demo_reach :
    Reach (ttas 1) 1 (⟨false, 1, fun _ => TState.idle 1⟩ : Sys 1 (ttas 1)) := by
  refine reach_of_eq (Reach.step 0 _ _ (Reach.step 0 _ _ (Reach.step 0 _ _
    (Reach.step 0 _ _ (Reach.step 0 _ _ Reach.init
      (Step.start _ 0 (by exact rfl) (by decide)))
      (Step.enter _ 0 () true (by exact rfl) (by exact ⟨rfl, rfl⟩)))
      (Step.read _ 0 (by exact rfl)))
      (Step.write _ 0 0 (by exact rfl)))
      (Step.rexit _ 0 () false (by exact rfl) (by exact rfl)))
    rfl rfl ?_
  intro u
  fin_cases u
  rfl

/-- A complete one-thread, one-increment execution of the ticket-lock
experiment: start, draw ticket 0, observe `owner_ticket_ = 0`, read, write,
`fetch_add` on `owner_ticket_`. -/
theorem ticket_demo_reach :
    Reach (ticket 1) 1
      (⟨(1, 1), 1, fun _ => TState.idle 1⟩ : Sys 1 (ticket 1)) := by
  refine reach_of_eq (Reach.step 0 _ _ (Reach.step 0 _ _ (Reach.step 0 _ _
    (Reach.step 0 _ _ (Reach.step 0 _ _ (Reach.step 0 _ _ Reach.init
      (Step.start _ 0 (by exact rfl) (by decide)))
      (Step.astep _ 0 none (some 0) (1, 0) (by exact rfl)
        (by exact Or.inl ⟨rfl, rfl, rfl⟩)))
      (Step.enter _ 0 (some 0) (1, 0) (by exact rfl)
        (by exact ⟨⟨0, rfl, rfl⟩, rfl⟩)))
      (Step.read _ 0 (by exact rfl)))
      (Step.write _ 0 0 (by exact rfl)))
      (Step.rexit _ 0 () (1, 1) (by exact rfl) (by exact rfl)))
    rfl rfl ?_
  intro u
  fin_cases u
  rfl

/-- A complete one-thread, one-increment execution of the futex-mutex
experiment: start, fast-path CAS from `Unlocked`, read, write, fast-path
unlock CAS back to `Unlocked`. -/
theorem futex_demo_reach :
    Reach (futex 1) 1
      (⟨FutexMutex.Word.unlocked, 1, fun _ => TState.idle 1⟩ : Sys 1 (futex 1)) := by
  refine reach_of_eq (Reach.step 0 _ _ (Reach.step 0 _ _ (Reach.step 0 _ _
    (Reach.step 0 _ _ (Reach.step 0 _ _ Reach.init
      (Step.start _ 0 (by exact rfl) (by decide)))
      (Step.enter _ 0 FA.fastPath FutexMutex.Word.lockedNoWaiters (by exact rfl)
        (by exact Or.inl ⟨rfl, rfl, rfl⟩)))
      (Step.read _ 0 (by exact rfl)))
      (Step.write _ 0 0 (by exact rfl)))
      (Step.rexit _ 0 false FutexMutex.Word.unlocked (by exact rfl)
        (by exact Or.inl ⟨rfl, rfl, rfl⟩)))
    rfl rfl ?_
  intro u
  fin_cases u
  rfl

/-- A complete one-thread, one-increment execution of the MCS queue-spinlock
experiment: start, exchange `tail_` (empty queue), set the own `is_owner_`
flag, observe it, read, write, successful release CAS of `tail_`. -/
theorem mcs_demo_reach :
    Reach (mcs 1) 1
      (⟨⟨none, fun _ => none, fun _ => false⟩, 1, fun _ => TState.idle 1⟩ :
        Sys 1 (mcs 1)) := by
  refine reach_of_eq (Reach.step 0 _ _ (Reach.step 0 _ _ (Reach.step 0 _ _
    (Reach.step 0 _ _ (Reach.step 0 _ _ (Reach.step 0 _ _ (Reach.step 0 _ _
      Reach.init
      (Step.start _ 0 (by exact rfl) (by decide)))
      (Step.astep _ 0 MA.toXchg MA.selfOwn _ (by exact rfl)
        (by exact Or.inl ⟨rfl, rfl, rfl, rfl⟩)))
      (Step.astep _ 0 MA.selfOwn MA.waitOwn _ (by exact rfl)
        (by exact Or.inr (Or.inr (Or.inr (Or.inl ⟨rfl, rfl, rfl⟩))))))
      (Step.enter _ 0 MA.waitOwn _ (by exact rfl) (by exact ⟨rfl, rfl, rfl⟩)))
      (Step.read _ 0 (by exact rfl)))
      (Step.write _ 0 0 (by exact rfl)))
      (Step.rexit _ 0 MR.relCAS _ (by exact rfl)
        (by exact Or.inl ⟨rfl, rfl, rfl⟩)))
    (by
      exact mcs_state_ext rfl (fun u => rfl)
        (fun u => by fin_cases u; rfl))
    rfl ?_
  intro u
  fin_cases u
  rfl

/-- C1: for every lock type (TTAS spinlock, ticket lock, MCS queue spinlock,
futex mutex), if the `n` threads each increment the shared counter `M` times
while holding the lock — read, then write the read value plus one, with no
other synchronization — then under arbitrary interleaving every execution in
which all threads have finished leaves the counter at exactly `n * M`. -/
theorem c1_counter_exactly_n_times_m :
    (∀ (n M : Nat) (s : Sys n (ttas n)), Reach (ttas n) M s →
      (∀ t, s.th t = .idle M) → s.ctr = n * M)
    ∧ (∀ (n M : Nat) (s : Sys n (ticket n)), Reach (ticket n) M s →
      (∀ t, s.th t = .idle M) → s.ctr = n * M)
    ∧ (∀ (n M : Nat) (s : Sys n (mcs n)), Reach (mcs n) M s →
      (∀ t, s.th t = .idle M) → s.ctr = n * M)
    ∧ (∀ (n M : Nat) (s : Sys n (futex n)), Reach (futex n) M s →
      (∀ t, s.th t = .idle M) → s.ctr = n * M) :=
  ⟨fun n M s h hdone => counter_exact (ttasGood n) h hdone,
   fun n M s h hdone => counter_exact (ticketGood n) h hdone,
   fun n M s h hdone => counter_exact (mcsGood n) h hdone,
   fun n M s h hdone => counter_exact (futexGood n) h hdone⟩

/-- Witness for C1 at `n = 1`, `M = 1`: for each of the four locks, the
explicit finished execution above reaches a state whose counter the theorem
evaluates to `1 * 1`. -/
theorem c1_counter_exactly_n_times_m_witness :
    (Reach (ttas 1) 1 (⟨false, 1, fun _ => TState.idle 1⟩ : Sys 1 (ttas 1))
      ∧ (⟨false, 1, fun _ => TState.idle 1⟩ : Sys 1 (ttas 1)).ctr = 1 * 1)
    ∧ (Reach (ticket 1) 1
        (⟨(1, 1), 1, fun _ => TState.idle 1⟩ : Sys 1 (ticket 1))
      ∧ (⟨(1, 1), 1, fun _ => TState.idle 1⟩ : Sys 1 (ticket 1)).ctr = 1 * 1)
    ∧ (Reach (mcs 1) 1
        (⟨⟨none, fun _ => none, fun _ => false⟩, 1, fun _ => TState.idle 1⟩ :
          Sys 1 (mcs 1))
      ∧ (⟨⟨none, fun _ => none, fun _ => false⟩, 1, fun _ => TState.idle 1⟩ :
          Sys 1 (mcs 1)).ctr = 1 * 1)
    ∧ (Reach (futex 1) 1
        (⟨FutexMutex.Word.unlocked, 1, fun _ => TState.idle 1⟩ : Sys 1 (futex 1))
      ∧ (⟨FutexMutex.Word.unlocked, 1, fun _ => TState.idle 1⟩ :
          Sys 1 (futex 1)).ctr = 1 * 1) :=
  ⟨⟨ttas_demo_reach,
    c1_counter_exactly_n_times_m.1 1 1 _ ttas_demo_reach fun u => rfl⟩,
   ⟨ticket_demo_reach,
    c1_counter_exactly_n_times_m.2.1 1 1 _ ticket_demo_reach fun u => rfl⟩,
   ⟨mcs_demo_reach,
    c1_counter_exactly_n_times_m.2.2.1 1 1 _ mcs_demo_reach fun u => rfl⟩,
   ⟨futex_demo_reach,
    c1_counter_exactly_n_times_m.2.2.2 1 1 _ futex_demo_reach fun u => rfl⟩⟩

/-- `Enqueue` when the `tail_` exchange returns null: the thread completes
its acquisition in three further steps of its own — claim the tail, set the
own `is_owner_` flag, observe it — with no step of any other thread. -/
theorem mcs_empty_xchg_path {n : Nat} (M : Nat) (s : Sys n (mcs n))
    (t : Fin n) (k : Nat) (hth : s.th t = .acq k MA.toXchg)
    (htail : s.lock.tail = none) :
    ∃ s1 s2 s3 : Sys n (mcs n),
      Step (mcs n) M t s s1 ∧ Step (mcs n) M t s1 s2 ∧ Step (mcs n) M t s2 s3
      ∧ s2.lock.own t = true ∧ s3.th t = .readC k := by
  refine ⟨⟨{ s.lock with tail := some t }, s.ctr,
      Function.update s.th t (TState.acq k MA.selfOwn)⟩,
    ⟨{ s.lock with
        tail := some t
        own := Function.update s.lock.own t true }, s.ctr,
      Function.update (Function.update s.th t (TState.acq k MA.selfOwn)) t
        (TState.acq k MA.waitOwn)⟩,
    ⟨{ s.lock with
        tail := some t
        own := Function.update s.lock.own t true }, s.ctr,
      Function.update (Function.update (Function.update s.th t
          (TState.acq k MA.selfOwn)) t (TState.acq k MA.waitOwn)) t
        (TState.readC k)⟩,
    ?_, ?_, ?_, ?_, ?_⟩
  · exact Step.astep s k MA.toXchg MA.selfOwn _ hth
      (Or.inl ⟨rfl, htail, rfl, rfl⟩)
  · exact Step.astep ⟨{ s.lock with tail := some t }, s.ctr,
        Function.update s.th t (TState.acq k MA.selfOwn)⟩ k
      MA.selfOwn MA.waitOwn
      { s.lock with
        tail := some t
        own := Function.update s.lock.own t true }
      (Function.update_same t _ s.th)
      (Or.inr (Or.inr (Or.inr (Or.inl ⟨rfl, rfl, rfl⟩))))
  · exact Step.enter ⟨{ s.lock with
          tail := some t
          own := Function.update s.lock.own t true }, s.ctr,
        Function.update (Function.update s.th t (TState.acq k MA.selfOwn)) t
          (TState.acq k MA.waitOwn)⟩ k MA.waitOwn
      { s.lock with
        tail := some t
        own := Function.update s.lock.own t true }
      (Function.update_same t _ _)
      ⟨rfl, Function.update_same t true s.lock.own, rfl⟩
  · exact Function.update_same t true s.lock.own
  · exact Function.update_same t _ _

/-- `Dequeue`: in a reachable state, the release CAS of `tail_` from the
releasing thread's node to null succeeds exactly when no other live node is
in the queue. -/
theorem mcs_release_cas_iff {n M : Nat} {s : Sys n (mcs n)} {t : Fin n}
    {k : Nat} (h : Reach (mcs n) M s) (hth : s.th t = .rel k MR.relCAS) :
    (s.lock.tail = some t ↔ ∀ u, u ≠ t → ¬ MLive ((s.th u).phase)) := by
  have hJ : mcsJ s.lock (phaseMap s.th) := (ginv_reach (mcsGood n) h).1
  obtain ⟨q, hnd, hmem, htail, hchain, hlast, hdead, hnonhead, hownhead,
    hheadok, hbusyown, hself⟩ := hJ
  have hbusy : (phaseMap s.th t).busy := by
    simp only [phaseMap, hth]
    trivial
  have hown := hbusyown t hbusy
  have hhead := hownhead t hown
  obtain ⟨q0, rfl⟩ : ∃ q0, q = t :: q0 := by
    cases q with
    | nil => cases hhead
    | cons a q0 =>
      simp only [List.head?_cons, Option.some.injEq] at hhead
      exact ⟨q0, by rw [hhead]⟩
  constructor
  · intro htl
    have hlst : (t :: q0).getLast? = some t := by
      rw [← htail]
      exact htl
    have hq0 : q0 = [] := by
      cases q0 with
      | nil => rfl
      | cons b q1 =>
        rw [List.getLast?_cons_cons] at hlst
        have hmemt : t ∈ b :: q1 := getLast?_mem hlst
        exact absurd hmemt (List.nodup_cons.mp hnd).1
    subst hq0
    intro u hne hlive
    have hu : u ∈ [t] := (hmem u).mpr hlive
    rw [List.mem_singleton] at hu
    exact hne hu
  · intro hno
    have hq0 : q0 = [] := by
      cases q0 with
      | nil => rfl
      | cons b q1 =>
        have hbq : b ∈ t :: b :: q1 := by simp
        have hlive := (hmem b).mp hbq
        have hbne : b ≠ t := by
          intro he
          exact (List.nodup_cons.mp hnd).1 (he ▸ (by simp : b ∈ b :: q1))
        exact absurd hlive (hno b hbne)
    subst hq0
    rw [htail]
    simp

/-- `Dequeue` after a failed release CAS: once the releaser's `next_` link is
non-null, a single step hands the lock over — it sets the successor's
`is_owner_` flag to true and completes the release. -/
theorem mcs_relwait_handoff {n M : Nat} {s : Sys n (mcs n)} {t u : Fin n}
    {k : Nat} (h : Reach (mcs n) M s) (hth : s.th t = .rel k MR.relWait)
    (hnxt : s.lock.nxt t = some u) :
    ∃ s' : Sys n (mcs n), Step (mcs n) M t s s' ∧ s'.lock.own u = true
      ∧ s'.th t = .idle (k + 1) := by
  have hJ : mcsJ s.lock (phaseMap s.th) := (ginv_reach (mcsGood n) h).1
  obtain ⟨q, hnd, hmem, htail, hchain, hlast, hdead, hnonhead, hownhead,
    hheadok, hbusyown, hself⟩ := hJ
  have hbusy : (phaseMap s.th t).busy := by
    simp only [phaseMap, hth]
    trivial
  have hown := hbusyown t hbusy
  have hhead := hownhead t hown
  obtain ⟨q0, rfl⟩ : ∃ q0, q = t :: q0 := by
    cases q with
    | nil => cases hhead
    | cons a q0 =>
      simp only [List.head?_cons, Option.some.injEq] at hhead
      exact ⟨q0, by rw [hhead]⟩
  have hut : u ≠ t := by
    cases q0 with
    | nil =>
      have hn0 := hlast t (by simp)
      rw [hn0] at hnxt
      exact Option.noConfusion hnxt
    | cons b q1 =>
      have hadj : Adj (t :: b :: q1) t b := ⟨[], q1, rfl⟩
      rcases hchain t b hadj with ⟨hphb, hn⟩ | ⟨hn, hphb⟩
      · rw [hn] at hnxt
        exact Option.noConfusion hnxt
      · rw [hn] at hnxt
        injection hnxt with hbu
        intro he
        apply (List.nodup_cons.mp hnd).1
        rw [← he, ← hbu]
        simp
  refine ⟨⟨⟨s.lock.tail, Function.update s.lock.nxt t none,
      Function.update (Function.update s.lock.own u true) t false⟩, s.ctr,
      Function.update s.th t (TState.idle (k + 1))⟩, ?_, ?_, ?_⟩
  · exact Step.rexit s k MR.relWait _ hth (Or.inr ⟨u, rfl, hnxt, rfl⟩)
  · show Function.update (Function.update s.lock.own u true) t false u = true
    rw [Function.update_noteq hut, Function.update_same]
  · exact Function.update_same t _ s.th

/-- A reachable single-thread state of the MCS lock with the thread in
`Release` right before the `tail_` compare-and-swap, its node still being
the tail. -/
theorem mcs_relcas_demo_reach :
    Reach (mcs 1) 1
      (⟨⟨some 0, fun _ => none, fun _ => true⟩, 1,
        fun _ => TState.rel 0 MR.relCAS⟩ : Sys 1 (mcs 1)) := by
  refine reach_of_eq (Reach.step 0 _ _ (Reach.step 0 _ _ (Reach.step 0 _ _
    (Reach.step 0 _ _ (Reach.step 0 _ _ (Reach.step 0 _ _ Reach.init
      (Step.start _ 0 (by exact rfl) (by decide)))
      (Step.astep _ 0 MA.toXchg MA.selfOwn _ (by exact rfl)
        (by exact Or.inl ⟨rfl, rfl, rfl, rfl⟩)))
      (Step.astep _ 0 MA.selfOwn MA.waitOwn _ (by exact rfl)
        (by exact Or.inr (Or.inr (Or.inr (Or.inl ⟨rfl, rfl, rfl⟩))))))
      (Step.enter _ 0 MA.waitOwn _ (by exact rfl) (by exact ⟨rfl, rfl, rfl⟩)))
      (Step.read _ 0 (by exact rfl)))
      (Step.write _ 0 0 (by exact rfl)))
    (by
      exact mcs_state_ext rfl (fun u => rfl)
        (fun u => by fin_cases u; rfl))
    rfl ?_
  intro u
  fin_cases u
  rfl

/-- A reachable two-thread state of the MCS lock: thread 0 holds the lock,
thread 1 has enqueued behind it and linked itself, thread 0 has failed the
release CAS and spins in `SpinUntilNextWaiter` with `next_ = thread 1`. -/
theorem mcs_relwait_demo_reach :
    Reach (mcs 2) 1
      (⟨⟨some 1, Function.update (fun _ => none) 0 (some 1),
          Function.update (fun _ => false) 0 true⟩, 1,
        fun v => if v = 0 then TState.rel 0 MR.relWait
          else TState.acq 0 MA.waitOwn⟩ : Sys 2 (mcs 2)) := by
  refine reach_of_eq
    (Reach.step 0 _ _ (Reach.step 0 _ _ (Reach.step 0 _ _ (Reach.step 1 _ _
      (Reach.step 1 _ _ (Reach.step 1 _ _ (Reach.step 0 _ _ (Reach.step 0 _ _
      (Reach.step 0 _ _ (Reach.step 0 _ _ Reach.init
      (Step.start _ 0 (by exact rfl) (by decide)))
      (Step.astep _ 0 MA.toXchg MA.selfOwn _ (by exact rfl)
        (by exact Or.inl ⟨rfl, rfl, rfl, rfl⟩)))
      (Step.astep _ 0 MA.selfOwn MA.waitOwn _ (by exact rfl)
        (by exact Or.inr (Or.inr (Or.inr (Or.inl ⟨rfl, rfl, rfl⟩))))))
      (Step.enter _ 0 MA.waitOwn _ (by exact rfl)
        (by exact ⟨rfl, rfl, rfl⟩)))
      (Step.start _ 0 (by exact rfl) (by decide)))
      (Step.astep _ 0 MA.toXchg (MA.linking 0) _ (by exact rfl)
        (by exact Or.inr (Or.inl ⟨0, rfl, rfl, rfl, rfl⟩))))
      (Step.astep _ 0 (MA.linking 0) MA.waitOwn _ (by exact rfl)
        (by exact Or.inr (Or.inr (Or.inl ⟨0, rfl, rfl, rfl⟩)))))
      (Step.read _ 0 (by exact rfl)))
      (Step.write _ 0 0 (by exact rfl)))
      (Step.rstep _ 0 MR.relCAS MR.relWait _ (by exact rfl)
        (by exact Or.inl ⟨rfl, by decide, rfl, rfl⟩)))
    (by
      exact mcs_state_ext rfl (fun u => rfl)
        (fun u => by fin_cases u <;> rfl))
    rfl ?_
  intro u
  fin_cases u <;> rfl

/-- C9: for the MCS `QueueSpinLock`, (i) when the atomic exchange of `tail_`
in `Enqueue` returns null, the enqueuing thread completes `Acquire` by three
steps of its own — it sets its own `is_owner_` flag and enters without
waiting on any other thread; (ii) in `Dequeue`, the compare-and-swap of
`tail_` from the releasing node to null succeeds if and only if no other
node was enqueued after it; (iii) after a failed CAS, once the releaser's
`next_` link is non-null, its next step sets the successor's `is_owner_`
flag to true and completes the release. -/
theorem c9_mcs_enqueue_release :
    (∀ (n M : Nat) (s : Sys n (mcs n)) (t : Fin n) (k : Nat),
        s.th t = .acq k MA.toXchg → s.lock.tail = none →
        ∃ s1 s2 s3 : Sys n (mcs n),
          Step (mcs n) M t s s1 ∧ Step (mcs n) M t s1 s2
          ∧ Step (mcs n) M t s2 s3 ∧ s2.lock.own t = true
          ∧ s3.th t = .readC k)
    ∧ (∀ (n M : Nat) (s : Sys n (mcs n)) (t : Fin n) (k : Nat),
        Reach (mcs n) M s → s.th t = .rel k MR.relCAS →
        (s.lock.tail = some t ↔ ∀ u, u ≠ t → ¬ MLive ((s.th u).phase)))
    ∧ (∀ (n M : Nat) (s : Sys n (mcs n)) (t u : Fin n) (k : Nat),
        Reach (mcs n) M s → s.th t = .rel k MR.relWait →
        s.lock.nxt t = some u →
        ∃ s' : Sys n (mcs n), Step (mcs n) M t s s' ∧ s'.lock.own u = true
          ∧ s'.th t = .idle (k + 1)) :=
  ⟨fun _ M s t k hth htail => mcs_empty_xchg_path M s t k hth htail,
   fun _ _ _ _ _ h hth => mcs_release_cas_iff h hth,
   fun _ _ _ _ _ _ h hth hnxt => mcs_relwait_handoff h hth hnxt⟩

/-- Witness for C9: (i) applied to a single thread about to exchange into an
empty queue; (ii) applied to the reachable state in which the lone holder is
about to run the release CAS; (iii) applied to the reachable two-thread
state in which thread 0 spins in `SpinUntilNextWaiter` with its `next_` link
set to thread 1. -/
theorem c9_mcs_enqueue_release_witness :
    (∃ s1 s2 s3 : Sys 1 (mcs 1),
        Step (mcs 1) 1 0 (⟨⟨none, fun _ => none, fun _ => false⟩, 0,
          fun _ => TState.acq 0 MA.toXchg⟩ : Sys 1 (mcs 1)) s1
        ∧ Step (mcs 1) 1 0 s1 s2 ∧ Step (mcs 1) 1 0 s2 s3
        ∧ s2.lock.own 0 = true ∧ s3.th 0 = .readC 0)
    ∧ (Reach (mcs 1) 1
        (⟨⟨some 0, fun _ => none, fun _ => true⟩, 1,
          fun _ => TState.rel 0 MR.relCAS⟩ : Sys 1 (mcs 1))
      ∧ ((⟨⟨some 0, fun _ => none, fun _ => true⟩, 1,
          fun _ => TState.rel 0 MR.relCAS⟩ : Sys 1 (mcs 1)).lock.tail = some 0
        ↔ ∀ u, u ≠ 0 →
            ¬ MLive (((⟨⟨some 0, fun _ => none, fun _ => true⟩, 1,
              fun _ => TState.rel 0 MR.relCAS⟩ :
                Sys 1 (mcs 1)).th u).phase)))
    ∧ (Reach (mcs 2) 1
        (⟨⟨some 1, Function.update (fun _ => none) 0 (some 1),
            Function.update (fun _ => false) 0 true⟩, 1,
          fun v => if v = 0 then TState.rel 0 MR.relWait
            else TState.acq 0 MA.waitOwn⟩ : Sys 2 (mcs 2))
      ∧ ∃ s' : Sys 2 (mcs 2),
          Step (mcs 2) 1 0
            (⟨⟨some 1, Function.update (fun _ => none) 0 (some 1),
                Function.update (fun _ => false) 0 true⟩, 1,
              fun v => if v = 0 then TState.rel 0 MR.relWait
                else TState.acq 0 MA.waitOwn⟩ : Sys 2 (mcs 2)) s'
          ∧ s'.lock.own 1 = true ∧ s'.th 0 = .idle 1) := by
  refine ⟨?_, ⟨mcs_relcas_demo_reach, ?_⟩, ⟨mcs_relwait_demo_reach, ?_⟩⟩
  · refine c9_mcs_enqueue_release.1 1 1 _ 0 0 ?_ ?_ <;> rfl
  · exact c9_mcs_enqueue_release.2.1 1 1 _ 0 0 mcs_relcas_demo_reach rfl
  · refine c9_mcs_enqueue_release.2.2 2 1 _ 0 1 0
      mcs_relwait_demo_reach ?_ ?_ <;> rfl

end LockSys
